import Mathlib

/-!
Verification of the PitchMate-AI core subsystems (Relevance Filter,
Domain/Segment Router, Script Engine, Length Governor) against their
natural-language specification.  The Python sources under `graph/` are
shallowly embedded below: pure functions become Lean functions, Python
`dict`s become structures or lookup functions, machine floats become
rationals (all constants and comparisons used by the code are exact), and
code that can raise becomes `Except Unit`.
-/

set_option autoImplicit false
set_option maxRecDepth 8192

namespace PM

/-! ## Python string primitives

The Python code manipulates `str` values; we model them as `String` /
`List Char`.  `str.lower`, `str.strip` and the `\s` regex class are
modelled with `Char.toLower` / `Char.isWhitespace`, which agree with
Python on the ASCII/Hangul alphabet actually used by the keyword tables.
-/

/-- Python's substring test `needle in haystack` on character lists. -/
def containsSub (haystack needle : List Char) : Bool :=
  match haystack with
  | [] => needle.isEmpty
  | _ :: tl => needle.isPrefixOf haystack || containsSub tl needle

/-- Python's substring test `pat in hay` on strings. -/
def containsSubS (hay pat : String) : Bool :=
  containsSub hay.data pat.data

/-- Helper for `countSub`: scan one character at a time; `skip` counts
characters still to be consumed by the most recent match (structural
recursion, so that the kernel can evaluate it). -/
def countSubAux (needle : List Char) : List Char → Nat → Nat
  | [], _ => 0
  | c :: tl, skip =>
    match skip with
    | s + 1 => countSubAux needle tl s
    | 0 =>
      if needle ≠ [] ∧ needle.isPrefixOf (c :: tl) then
        1 + countSubAux needle tl (needle.length - 1)
      else
        countSubAux needle tl 0

/-- Python's non-overlapping occurrence count `haystack.count(needle)`
(left-to-right greedy scan). -/
def countSub (haystack needle : List Char) : Nat :=
  countSubAux needle haystack 0

/-- Python's `str.rstrip()` (trailing whitespace removed). -/
def rstripChars (l : List Char) : List Char :=
  (l.reverse.dropWhile Char.isWhitespace).reverse

/-- Python's `str.strip()` (leading and trailing whitespace removed). -/
def stripChars (l : List Char) : List Char :=
  rstripChars (l.dropWhile Char.isWhitespace)

/-- `str.strip()` on strings. -/
def pyStrip (s : String) : String :=
  ⟨stripChars s.data⟩

/-- The punctuation class removed by `_norm`:
`[\"'`.,:;()\[\]{}<>~^\-_/\\]` (shared by `router.py` and
`script_catalog.py`). -/
def NORM_PUNCT : List Char := "\"'`.,:;()[]\x7b\x7d<>~^-_/\\".data

/-- Helper for `collapseWs`: `prevWs` records whether the previous
character was whitespace (and was already emitted as a single space). -/
def collapseWsAux : List Char → Bool → List Char
  | [], _ => []
  | c :: tl, prevWs =>
    if c.isWhitespace then
      if prevWs then collapseWsAux tl true else ' ' :: collapseWsAux tl true
    else c :: collapseWsAux tl false

/-- `re.sub(r"\s+", " ", s)`: each maximal whitespace run is replaced by a
single space. -/
def collapseWs (l : List Char) : List Char :=
  collapseWsAux l false

/-- Models `_norm` from `router.py` / `script_catalog.py`:
NFKC-normalize, lowercase, strip, replace punctuation by spaces, collapse
whitespace.  NFKC is modelled as the identity: every keyword in the
tables is plain lowercase ASCII or precomposed Hangul, on which NFKC is
the identity. -/
def pyNormL (l : List Char) : List Char :=
  let s1 := stripChars (l.map Char.toLower)
  let s2 := s1.map (fun c => if NORM_PUNCT.contains c then ' ' else c)
  collapseWs s2

/-- `_norm` on strings. -/
def pyNorm (s : String) : String :=
  ⟨pyNormL s.data⟩

/-! ## Router (`graph/router.py`) -/

def INTENTS : List String :=
  ["script_qna", "ideate", "feedback_quick", "summary", "research", "revenue", "write"]

def CONF_STRONG_RULE : ℚ := 9/10

def ON_TOPIC_THRESHOLD : ℚ := 28/100

def SEGMENTS : List String := ["camping", "experience", "sports"]

/-- `SEGMENT_KEYWORDS[seg]` (KR/EN keyword table). -/
def SEGMENT_KEYWORDS (seg : String) : List String :=
  if seg = "camping" then
    ["캠핑", "텐트", "오토캠핑", "글램핑", "카라반", "차박", "야영",
     "camp", "camping", "tent", "rv", "caravan", "glamping"]
  else if seg = "experience" then
    ["체험", "액티비티", "가이드투어", "현지체험", "현지 투어", "워크샵", "쿠킹클래스", "공방",
     "experience", "activity", "guided tour", "local tour", "workshop", "cooking class", "craft"]
  else if seg = "sports" then
    ["스포츠", "서핑", "스키", "스노보드", "등산", "하이킹", "트레킹", "사이클", "자전거",
     "클라이밍", "암벽", "축구", "야구", "골프", "테니스", "마라톤",
     "surf", "ski", "snowboard", "hike", "trek", "hiking", "cycling", "bike",
     "climbing", "soccer", "football", "baseball", "golf", "tennis", "marathon"]
  else []

def ON_TOPIC_HINTS : List String :=
  ["여행", "레저", "관광", "투어", "가이드", "체험", "액티비티", "숙소", "예약", "티켓", "패스"]

/-- `re.search(r"[A-Za-z0-9가-힣]", msg)`: a Latin/digit/Hangul-syllable
character. -/
def isLatinHangulAlnum (c : Char) : Bool :=
  (decide ('A' ≤ c ∧ c ≤ 'Z')) || (decide ('a' ≤ c ∧ c ≤ 'z')) ||
  (decide ('0' ≤ c ∧ c ≤ '9')) || (decide ('가' ≤ c ∧ c ≤ '힣'))

/-- `is_unrelated` from `router.py`. -/
def is_unrelated (msg : String) : Bool :=
  if (stripChars msg.data).length < 2 then true
  else if ¬ msg.data.any isLatinHangulAlnum then true
  else false

/-- `_keyword_match_any` from `router.py`. -/
def keyword_match_any (text : String) (words : List String) : Bool :=
  if text = "" then false
  else words.any (fun w => containsSubS (pyNorm text) (pyNorm w))

/-- Hit count of one segment's keyword list against a message
(`sum(1 for w in SEGMENT_KEYWORDS[seg] if _keyword_match_any(t, [w]))`). -/
def seg_hits (msg : String) (seg : String) : Nat :=
  ((SEGMENT_KEYWORDS seg).filter (fun w => keyword_match_any msg [w])).length

/-- The tie-break priority used by `rule_segment`
(`{"camping": 2, "experience": 1, "sports": 0}`). -/
def tieOrder (seg : String) : Nat :=
  if seg = "camping" then 2 else if seg = "experience" then 1 else 0

/-- Python's `max(items, key=lambda kv: (kv[1], tie_order[kv[0]]))`:
left-to-right scan keeping the current element unless a strictly greater
key appears (so the earliest maximal element wins; here the key is total,
so ties cannot occur anyway). -/
def maxBySegKey (x : String × Nat) : List (String × Nat) → String × Nat
  | [] => x
  | y :: ys =>
    if x.2 < y.2 ∨ (x.2 = y.2 ∧ tieOrder x.1 < tieOrder y.1) then maxBySegKey y ys
    else maxBySegKey x ys

/-- `rule_segment` from `router.py`: per-segment keyword hit counts
(only nonzero ones are kept, in `SEGMENTS` order, mirroring the Python
dict), then the maximum under the `(hits, tie_order)` key. -/
def rule_segment (msg : String) : Option String :=
  let scores := (SEGMENTS.map (fun seg => (seg, seg_hits msg seg))).filter (fun p => 0 < p.2)
  match scores with
  | [] => none
  | x :: xs => some (maxBySegKey x xs).1

/-- `on_topic_score` from `router.py` (float arithmetic is exact on the
values produced: `min(hits/5, 1.0)`). -/
def on_topic_score (msg : String) : ℚ :=
  let t := pyNorm msg
  let hintHits := (ON_TOPIC_HINTS.filter (fun k => containsSubS t (pyNorm k))).length
  let segAny := SEGMENTS.any (fun seg => keyword_match_any t (SEGMENT_KEYWORDS seg))
  let hits := hintHits + (if segAny then 1 else 0)
  min ((hits : ℚ) / 5) 1

/-! ## Shared graph state -/

structure Turn where
  role : String
  content : String
deriving DecidableEq, Repr

/-- `last_user_text` (`router.py`) / `_last_user_text` (`nodes_script.py`). -/
def last_user_text (turns : List Turn) : String :=
  match turns.reverse.find? (fun t => t.role = "user") with
  | some t => t.content
  | none => ""

/-- Interview progress, owned by the caller
(`{"section": ..., "index": ..., "answered": [...]}`).  The section is an
arbitrary string and the index an arbitrary integer because callers
resubmit this record. -/
structure Progress where
  section_ : String
  index : Int
  answered : List String
deriving DecidableEq, Repr

/-- The `domain` payload produced by `domain_detect_node` on the
non-short-circuited paths (a `RouterOutput.model_dump()` updated with the
segment fields). -/
structure DomainPayload where
  intent : String
  domain : String
  confidence : ℚ
  subdomain : Option String
  segment : Option String
  via : String
  isOnTopic : Bool
  onTopicScore : ℚ
deriving DecidableEq, Repr

/-- `state.outputs["domain"]`: either the short-circuit dict
`{"routed_step": ..., "via": "explicit"}` or the full payload. -/
inductive DomainOut where
  | explicitOut (routed_step : String) (via : String)
  | payload (p : DomainPayload)
deriving DecidableEq, Repr

/-- `state.outputs["script"]`; optional fields model dict keys that are
present only in some modes.  `progress = some none` models the JSON null
written in "end" mode. -/
structure ScriptOut where
  mode : String
  message : Option String
  question : Option String
  slot_key : Option String
  sectionName : Option String
  progress : Option (Option Progress)
deriving DecidableEq, Repr

structure Params where
  segment : Option String := none
  allow_zero_shot : Bool := false
  script_progress : Option Progress := none
  last_slot : Option String := none
deriving DecidableEq, Repr

structure Outputs where
  relevance : Option Bool := none
  faq : Option Bool := none
  domain : Option DomainOut := none
  script : Option ScriptOut := none
deriving DecidableEq, Repr

structure GraphState where
  turns : List Turn
  params : Params
  outputs : Outputs
  step : String
deriving DecidableEq, Repr

/-- `(state.outputs.get("domain") or {}).get("segment")`. -/
def domainSegment : Option DomainOut → Option String
  | some (.payload p) => p.segment
  | _ => none

/-- `(state.outputs.get("domain") or {}).get("isOnTopic", True)`. -/
def domainIsOnTopic : Option DomainOut → Bool
  | some (.payload p) => p.isOnTopic
  | _ => true

/-- Models `round(x, 2)`.  The scores produced here are exact multiples of
1/100, on which Python rounding is the identity, so rounding to the
nearest integer multiple of 1/100 is faithful. -/
def round2 (q : ℚ) : ℚ :=
  ((round (q * 100) : ℤ) : ℚ) / 100

/-- `domain_detect_node` from `router.py`, as a pure function.  The single
external call (`classify_segment_zero_shot`) is modelled by the oracle
argument `zeroShot`: `none` stands for "no result" (failure, timeout,
unparsable answer, or a label outside the three segments — the classifier
itself already collapses all of those to `None`). -/
def domain_detect_node (st : GraphState) (zeroShot : Option String) : GraphState :=
  if st.step ∈ INTENTS then
    { st with outputs := { st.outputs with domain := some (.explicitOut st.step "explicit") } }
  else
    let msg := last_user_text st.turns
    let related := st.outputs.relevance.getD true
    if ¬ related then
      { st with
        outputs := { st.outputs with domain := some (.payload
          { intent := "script_qna", domain := "travel", confidence := 3/10,
            subdomain := none, segment := none, via := "unrelated",
            isOnTopic := false, onTopicScore := 0 }) },
        step := "script_qna" }
    else
      let seg0 : Option String :=
        match st.params.segment with
        | some s => if SEGMENTS.contains s then some s else none
        | none => none
      let via0 : Option String := if seg0.isSome then some "param" else none
      let conf0 : ℚ := if seg0.isSome then 95/100 else 0
      let step1 : Option String × Option String × ℚ :=
        match seg0 with
        | some s => (some s, via0, conf0)
        | none =>
          match rule_segment msg with
          | some s => (some s, some "rule", CONF_STRONG_RULE)
          | none => (none, via0, conf0)
      let step2 : Option String × Option String × ℚ :=
        match step1.1 with
        | some s => (some s, step1.2.1, step1.2.2)
        | none =>
          if st.params.allow_zero_shot then
            match zeroShot with
            | some z =>
              if SEGMENTS.contains z then (some z, some "zero-shot", max step1.2.2 (65/100))
              else (none, step1.2.1, step1.2.2)
            | none => (none, step1.2.1, step1.2.2)
          else (none, step1.2.1, step1.2.2)
      let seg := step2.1
      let step3 : Option String × ℚ :=
        match seg with
        | some _ => (step2.2.1, step2.2.2)
        | none => (some (step2.2.1.getD "default"), max step2.2.2 (1/2))
      let topic_score := on_topic_score msg
      let is_on_topic : Bool := decide (ON_TOPIC_THRESHOLD ≤ topic_score) || seg.isSome
      let step4 : Option String × ℚ :=
        if is_on_topic then step3 else (some "unrelated", min step3.2 (3/10))
      { st with
        outputs := { st.outputs with domain := some (.payload
          { intent := "script_qna", domain := "travel", confidence := step4.2,
            subdomain := seg, segment := seg, via := step4.1.getD "",
            isOnTopic := is_on_topic, onTopicScore := round2 topic_score }) },
        step := "script_qna" }

/-! ## Script catalog (`graph/script_catalog.py`) -/

def A_ORDER : List String := ["A1_problem", "A2_pain", "A3_reason", "A4_unmet"]

def B_ORDER : List String :=
  ["B1_core_service", "B2_value", "B3_features", "B4_diff", "B5_edge"]

def C_ORDER : List String :=
  ["C1_consumer", "C2_alternatives", "C3_paincases", "C4_market_size",
   "C5_competitors", "C6_customer_traits", "C7_issues"]

def D_ORDER : List String :=
  ["D1_revenue_sources", "D2_model", "D3_segments", "D4_resources",
   "D5_extensions", "D6_diff", "D7_go_to_market", "D8_activation",
   "D9_kpi", "D10_trust"]

/-- `SECTION_ORDER.get(section)` (`None` for an unknown section). -/
def SECTION_ORDER_find (s : String) : Option (List String) :=
  if s = "A" then some A_ORDER
  else if s = "B" then some B_ORDER
  else if s = "C" then some C_ORDER
  else if s = "D" then some D_ORDER
  else none

/-- `QUESTIONS.get(slot_id, "")`. -/
def QUESTIONS_get (slot : String) : String :=
  if slot = "A1_problem" then "당신이 주목한 문제나 새로운 기회는 무엇인가요?"
  else if slot = "A2_pain" then "현재 가장 부족하거나 불편한 점은 무엇이라 보나요?"
  else if slot = "A3_reason" then "이 주제를 선택한 계기(시장 분위기, 개인경험, 트렌드 등)가 있나요?"
  else if slot = "A4_unmet" then "기존 시장에서 미충족된 고객 니즈는 무엇이라고 생각하시나요?"
  else if slot = "B1_core_service" then "제공할 핵심 서비스/경험은 무엇인가요? (예: 초보자 맞춤 강습+장비 예약 통합, 안전/보험 자동 연동 등)"
  else if slot = "B2_value" then "우리 서비스가 제공하는 '경험/가치'는 무엇인가요?"
  else if slot = "B3_features" then "핵심 서비스/제품/기능은 무엇인가요?"
  else if slot = "B4_diff" then "경쟁사와의 차별화 포인트는?"
  else if slot = "B5_edge" then "경쟁사보다 더 우월한 점/한계점 1가지는?"
  else if slot = "C1_consumer" then "상품 소비자의 특징(연령, 동기, 지역성 등)을 알고 있나요?"
  else if slot = "C2_alternatives" then "기존 비슷한 온라인/오프라인 서비스는? 차별화 필요성은?"
  else if slot = "C3_paincases" then "고객이 기존 서비스에서 겪는 불편 사례는?"
  else if slot = "C4_market_size" then ""
  else if slot = "C5_competitors" then "대표적인 경쟁 서비스(플랫폼/운영 업체)는 무엇이고, 강점/약점은?"
  else if slot = "C6_customer_traits" then "고객(이용자)의 주요 특성(연령, 가족/직장인, 여행 스타일 등)을 어떻게 보나요?"
  else if slot = "C7_issues" then "해당 분야의 주요 이슈나 니즈도 파악되어 있나요?"
  else if slot = "D1_revenue_sources" then "사업의 주요 수익원은 무엇인가요? (예: 예약수수료, 장비렌털, 멤버십, 광고 등)"
  else if slot = "D2_model" then "수익 모델은 무엇인가요? (복수예약 중개, 정액 구독, 후기/포인트 프로그램 등)"
  else if slot = "D3_segments" then "주요 고객층은 누구로 설정할 건가요?"
  else if slot = "D4_resources" then "필요 리소스가 있나요?"
  else if slot = "D5_extensions" then "장기적으로 확장 가능한 추가 기능/서비스 아이디어가 있나요?"
  else if slot = "D6_diff" then "유사 서비스와의 차별점은 무엇인가요?"
  else if slot = "D7_go_to_market" then "시장진입 방법(마케팅, 홍보 채널, 첫 파트너 선정기준 등)은?"
  else if slot = "D8_activation" then "고객 확보/활성화 전략(커뮤니티, SNS, MZ 감성 등)은?"
  else if slot = "D9_kpi" then "성공지표(KPI)를 어떻게 정할 것인지?"
  else if slot = "D10_trust" then "서비스 품질보증/신뢰확보 방안은?"
  else ""

/-- `SEG_LABEL.get(segment, SEG_LABEL[None])`. -/
def SEG_LABEL_get (seg : Option String) : String :=
  match seg with
  | some "camping" => "캠핑/글램핑"
  | some "experience" => "현지체험/액티비티"
  | some "sports" => "레저 스포츠(서핑/등산 등)"
  | _ => "여행·레저"

/-- `KEYWORDS.get(slot_id, [])` (jump-keyword table). -/
def KEYWORDS_get (slot : String) : List String :=
  if slot = "D1_revenue_sources" then
    ["수익원", "수익", "매출", "수수료", "구독", "광고", "멤버십", "렌털", "유료"]
  else if slot = "B1_core_service" then
    ["핵심 서비스", "무엇을 제공", "경험 제공", "통합", "강습", "예약"]
  else if slot = "C4_market_size" then
    ["시장 규모", "성장 추세", "트렌드", "규모"]
  else if slot = "B4_diff" then
    ["차별화", "우월", "다름", "강점", "약점"]
  else []

/-- `_dyn_question` from `script_catalog.py`. -/
def dyn_question (slot : String) (segment : Option String) : String :=
  if slot = "C4_market_size" then
    SEG_LABEL_get segment ++ " 시장 규모와 최근 성장 추세에 대해 알고 있나요?"
  else QUESTIONS_get slot

/-- `first_progress()`. -/
def first_progress : Progress :=
  { section_ := "A", index := 0, answered := [] }

/-- `flow[flow.index(section) + 1]` with the surrounding
`try/except → None` (past `"D"`, or an unknown section, yields `None`). -/
def flowNext (s : String) : Option String :=
  if s = "A" then some "B"
  else if s = "B" then some "C"
  else if s = "C" then some "D"
  else none

/-- `next_progress` from `script_catalog.py`.  `SECTION_ORDER[section]`
raises `KeyError` on an unknown section, modelled by `Except.error`. -/
def next_progress (p : Progress) : Except Unit (Option Progress) :=
  match SECTION_ORDER_find p.section_ with
  | none => .error ()
  | some order =>
    let index := p.index + 1
    if index < (order.length : Int) then .ok (some { p with index := index })
    else
      match flowNext p.section_ with
      | none => .ok none
      | some nxt => .ok (some { section_ := nxt, index := 0, answered := p.answered })

/-- `current_question` from `script_catalog.py`; returns `(slot_id, text)`. -/
def current_question (p : Progress) (segment : Option String) : Option (String × String) :=
  match SECTION_ORDER_find p.section_ with
  | none => none
  | some order =>
    if order.isEmpty ∨ p.index < 0 ∨ (order.length : Int) ≤ p.index then none
    else
      let slot := order.getD p.index.toNat ""
      let t1 := dyn_question slot segment
      let text := if t1 = "" then QUESTIONS_get slot else t1
      if text = "" then none else some (slot, text)

/-- `_score_slot` from `script_catalog.py`. -/
def score_slot (user_text : String) (slot : String) : Nat :=
  if user_text = "" then 0
  else ((KEYWORDS_get slot).filter
    (fun kw => containsSubS (pyNorm user_text) (pyNorm kw))).length

/-- `sorted(scored, key=lambda x: x[1], reverse=True)[0]`: Python's sort is
stable and `reverse=True` keeps the relative order of equal keys, so the
head of the sorted list is the earliest pair of maximal score. -/
def pickTop : List (String × Nat) → Option (String × Nat)
  | [] => none
  | x :: xs =>
    match pickTop xs with
    | none => some x
    | some y => if x.2 < y.2 then some y else some x

/-- `choose_next_progress` from `script_catalog.py`.  `order.index(sid)` is
`List.indexOf` (first occurrence; every `sid` filtered from `order` occurs
in it, so the Python `ValueError` case is unreachable). -/
def choose_next_progress (p : Progress) (user_text : String) : Except Unit (Option Progress) :=
  let order := (SECTION_ORDER_find p.section_).getD []
  if order.isEmpty then next_progress p
  else
    let remaining := order.filter
      (fun sid => !(p.answered.contains sid) && decide (p.index + 1 ≤ ((order.indexOf sid : Nat) : Int)))
    match pickTop (remaining.map (fun sid => (sid, score_slot user_text sid))) with
    | none => next_progress p
    | some top =>
      if 0 < top.2 then .ok (some { p with index := ((order.indexOf top.1 : Nat) : Int) })
      else next_progress p

/-! ## Script node (`graph/nodes_script.py`) -/

def OFFTOPIC_NOTICE : String :=
  "이 챗봇은 여행·레저(캠핑/체험/스포츠) 전용입니다. 원하는 세그먼트를 알려주세요. 예) \"캠핑으로 할래요\""

def END_MESSAGE : String :=
  "모든 핵심 질문을 수집했습니다. 원하시면 요약이나 사업계획서 초안을 생성해 드릴게요."

/-- `answered = set(progress.get("answered", [])); answered.add(x);
list(answered)`: Python's set iteration order is unspecified; only
membership is ever observed downstream, so we append new elements. -/
def pyInsert (x : String) (l : List String) : List String :=
  if l.contains x then l else l ++ [x]

/-- `_get_segment` from `nodes_script.py` (`if seg: return seg` — the empty
string is falsy). -/
def get_segment (st : GraphState) : Option String :=
  match domainSegment st.outputs.domain with
  | some s => if s = "" then st.params.segment else some s
  | none => st.params.segment

/-- `script_qna_node` from `nodes_script.py`, as a pure function; a raised
`KeyError` (impossible from the states this node itself builds) is
`Except.error`. -/
def noticeOut : ScriptOut :=
  { mode := "notice", message := some OFFTOPIC_NOTICE, question := none,
    slot_key := none, sectionName := none, progress := none }

def endOut : ScriptOut :=
  { mode := "end", message := some END_MESSAGE, question := none,
    slot_key := none, sectionName := none, progress := some none }

def askOut (q : String × String) (progress : Progress) : ScriptOut :=
  { mode := "ask", message := none, question := some q.2,
    slot_key := some q.1, sectionName := some progress.section_,
    progress := some (some progress) }

def script_qna_node (st : GraphState) : Except Unit GraphState :=
  let on_topic := domainIsOnTopic st.outputs.domain
  let segment := get_segment st
  if ¬ on_topic then
    .ok { st with outputs := { st.outputs with script := some noticeOut } }
  else do
    let progress0 := st.params.script_progress.getD first_progress
    let user_text := pyStrip (last_user_text st.turns)
    let asked_slot := st.params.last_slot
    let curr_q := current_question progress0 segment
    let progress ←
      match asked_slot, curr_q with
      | some a, some q =>
        if a ≠ "" ∧ a = q.1 ∧ user_text ≠ "" then do
          let p1 := { progress0 with answered := pyInsert a progress0.answered }
          let cnp ← choose_next_progress p1 user_text
          let nxt ← match cnp with
            | some x => pure (some x)
            | none => next_progress p1
          pure (match nxt with | some x => x | none => p1)
        else pure progress0
      | _, _ => pure progress0
    match current_question progress segment with
    | none =>
      .ok { st with outputs := { st.outputs with script := some endOut } }
    | some q =>
      .ok { st with outputs := { st.outputs with script := some (askOut q progress) } }

/-! ## Linear interview run (caller protocol around `script_qna_node`)

The caller persists and resubmits `{progress, last-asked slot id}` between
turns (spec §4.3).  `simStep` is one full turn: build the request state,
run the node, and echo back the returned progress and slot id.  Every
answer is the non-empty text `"ok"`, which matches none of the jump
keywords, and the segment is fixed to `camping`. -/

def linearDomain : DomainOut :=
  .payload { intent := "script_qna", domain := "travel", confidence := 9/10,
             subdomain := some "camping", segment := some "camping", via := "rule",
             isOnTopic := true, onTopicScore := 1 }

structure SimState where
  prog : Option Progress
  lastSlot : Option String
  asked : List String
  lastMode : String
deriving DecidableEq, Repr

def simInit : SimState :=
  { prog := none, lastSlot := none, asked := [], lastMode := "" }

def mkState (s : SimState) : GraphState :=
  { turns := [{ role := "user", content := "ok" }],
    params := { segment := none, allow_zero_shot := false,
                script_progress := s.prog, last_slot := s.lastSlot },
    outputs := { relevance := some true, faq := none,
                 domain := some linearDomain, script := none },
    step := "script_qna" }

def simStep (s : SimState) : SimState :=
  match script_qna_node (mkState s) with
  | .error _ => { s with lastMode := "error" }
  | .ok st =>
    match st.outputs.script with
    | some out =>
      match out.mode, out.slot_key, out.progress with
      | "ask", some slot, some (some p) =>
        { prog := some p, lastSlot := some slot,
          asked := s.asked ++ [slot], lastMode := "ask" }
      | m, _, _ => { s with lastMode := m }
    | none => { s with lastMode := "none" }

def simIter : Nat → SimState
  | 0 => simInit
  | n + 1 => simStep (simIter n)

/-- The 26 slot identifiers in catalog order. -/
def ALL_SLOTS : List String := A_ORDER ++ B_ORDER ++ C_ORDER ++ D_ORDER

/-- C1: evaluation of the Script Engine on the claim's scenario.  Starting
from `first_progress()` with segment `camping` and answering every asked
slot with non-empty keyword-free text, the first 26 turns ask exactly the
26 slots in catalog order — but the turn after the last slot of section D
is answered returns mode `"ask"` for `D10_trust` again (its `asked` log
grows to 27 entries), not the terminal `"end"` output the claim and the
spec require: once `next_progress` rolls off section D the node keeps the
stale progress instead of reporting completion. -/
theorem C1_linear_run_reasks_last_slot :
    (simIter 26).asked = ALL_SLOTS ∧ (simIter 26).lastMode = "ask" ∧
    (simIter 27).lastMode = "ask" ∧ (simIter 27).lastSlot = some "D10_trust" ∧
    (simIter 27).asked = ALL_SLOTS ++ ["D10_trust"] := by
  decide

/-! ## Length governor (`graph/length_control.py`)

Character caps are non-negative integers here (`Nat`); the Python code
only ever passes positive caps (`KEY_POLICY` constants and the
positivity-coerced caps of `apply_length_control`).  Token caps stay
`Option Int` because `enforce_token_cap` itself guards non-positive
values.  The tokenizer is modelled in its documented fallback mode
(whitespace split), the exact `tiktoken` encoder being an external
capability. -/

def LENGTH_PRESETS_chars (style : String) : Option Nat :=
  if style = "one_line" then some 140
  else if style = "short" then some 400
  else if style = "medium" then some 1200
  else if style = "long" then some 4000
  else none

def LENGTH_PRESETS_tokens (style : String) : Option Int :=
  if style = "one_line" then some 50
  else if style = "short" then some 120
  else if style = "medium" then some 300
  else if style = "long" then some 1000
  else none

/-- `str.split()`: maximal non-whitespace words, no empties. -/
def splitWsAux : List Char → List Char → List (List Char)
  | [], acc => if acc.isEmpty then [] else [acc.reverse]
  | c :: tl, acc =>
    if c.isWhitespace then
      if acc.isEmpty then splitWsAux tl [] else acc.reverse :: splitWsAux tl []
    else splitWsAux tl (c :: acc)

def splitWs (l : List Char) : List (List Char) :=
  splitWsAux l []

/-- `" ".join(words)`. -/
def joinSpace : List (List Char) → List Char
  | [] => []
  | [w] => w
  | w :: ws => w ++ ' ' :: joinSpace ws

/-- `enforce_token_cap` with the fallback tokenizer
(`encode = str.split`, `decode = " ".join`, which never throws). -/
def enforce_token_cap (text : String) (max_tokens : Option Int) : String :=
  match max_tokens with
  | none => text
  | some m =>
    if m ≤ 0 then text
    else
      let ids := splitWs text.data
      if (ids.length : Int) ≤ m then text
      else ⟨joinSpace (ids.take m.toNat)⟩

def FENCE_TRIPLE : List Char := "```".data

def FENCE_TILDES : List Char := "~~~".data

/-- `_balance_fences` (the second count runs on the possibly already
extended text, exactly as the Python statements execute in sequence). -/
def balance_fences (l : List Char) : List Char :=
  let l1 := if countSub l FENCE_TRIPLE % 2 = 1 then l ++ '\n' :: FENCE_TRIPLE else l
  if countSub l1 FENCE_TILDES % 2 = 1 then l1 ++ '\n' :: FENCE_TILDES else l1

/-- `_inside_code_block(text, idx)`. -/
def inside_code_block (t : List Char) (idx : Nat) : Bool :=
  decide (countSub (t.take idx) FENCE_TRIPLE % 2 = 1) ||
  decide (countSub (t.take idx) FENCE_TILDES % 2 = 1)

/-- The character class of `_SENT_PUNCT` (`[.!?。！？…]`). -/
def SENT_PUNCT_CHARS : List Char := ".!?。！？…".data

/-- The single-character alternatives of `_EXPLICIT_END`
(`[\n]+|[”’"'」』)\]]`). -/
def EXPLICIT_END_CHARS : List Char := "\n”’\"'」』)]".data

/-- A character that can appear in a match of
`(?:_SENT_PUNCT|_EXPLICIT_END)`. -/
def isCend (c : Char) : Bool :=
  SENT_PUNCT_CHARS.contains c || EXPLICIT_END_CHARS.contains c

/-- The character class of `_WORD_BOUNDARY` (`[\s,;:/·\-–—]`). -/
def isWB (c : Char) : Bool :=
  c.isWhitespace || (",;:/·-–—".data).contains c

/-- Index of the last character satisfying `p`. -/
def lastIdxWhere (p : Char → Bool) : List Char → Option Nat
  | [] => none
  | c :: tl =>
    match lastIdxWhere p tl with
    | some j => some (j + 1)
    | none => if p c then some 0 else none

/-- Start of the maximal `isWB` run containing position `j` (walk left
while the previous character is also a word-boundary character). -/
def runStartFrom (l : List Char) : Nat → Nat
  | 0 => 0
  | j + 1 => if isWB (l.getD j ' ') then runStartFrom l j else j + 1

/-- `list(re.finditer(_WORD_BOUNDARY, l))[-1].start()`: the matches of
`[\s,;:/·\-–—]+` are exactly the maximal `isWB` runs, so the last match
starts at the start of the run containing the last `isWB` character. -/
def lastWRunStart (l : List Char) : Option Nat :=
  match lastIdxWhere isWB l with
  | none => none
  | some j => some (runStartFrom l j)

def LINK_TOKENS : List (List Char) :=
  ["](".data, "http://".data, "https://".data, "://".data]

/-- `_backoff_link_boundary` (the `for m in reversed(...): return m.start()`
loop returns the start of the last word-boundary match, or falls through
to `cut_idx` when there is none; `text[start:cut_idx]` with
`start = max(0, cut_idx - 6)` is `(t.take cut).drop (cut - 6)` by the
truncating `Nat` subtraction). -/
def backoff_link_boundary (t : List Char) (cut : Nat) : Nat :=
  let window := (t.take cut).drop (cut - 6)
  if LINK_TOKENS.any (fun tok => containsSub window tok) then
    match lastWRunStart (t.take cut) with
    | some s => s
    | none => cut
  else cut

/-- The `while cut_idx > 0 and _inside_code_block(text, cut_idx)` loop. -/
def retreatCut (t : List Char) : Nat → Nat
  | 0 => 0
  | n + 1 => if inside_code_block t (n + 1) then retreatCut t n else n + 1

/-- Steps 1-2 of `soft_cut`: the end of the last sentence/explicit-end
match (one past the last matching character — every such character belongs
to a match and no match extends past them), else the start of the last
word-boundary run, else the snippet end (hard cut). -/
def base_cut (snippet : List Char) : Nat :=
  match lastIdxWhere isCend snippet with
  | some j => j + 1
  | none =>
    match lastWRunStart snippet with
    | some s => s
    | none => snippet.length

/-- The cut position chosen by `soft_cut` for `len(text) > max_chars`:
steps 1-2 (`base_cut`), step 3 retreats out of an open fence, step 4
applies the link backoff, and finally the Python
`max(1, min(cut_idx, len(snippet)))` clamp. -/
def soft_cut_idx (t : List Char) (max_chars : Nat) : Nat :=
  let snippet := t.take max_chars
  max 1 (min (backoff_link_boundary t (retreatCut t (base_cut snippet))) snippet.length)

/-- `soft_cut` from `length_control.py`. -/
def soft_cut (t : List Char) (max_chars : Nat) (add_ellipsis : Bool) : List Char :=
  if t.length ≤ max_chars then balance_fences t
  else
    let out := balance_fences (rstripChars (t.take (soft_cut_idx t max_chars)))
    if add_ellipsis then out ++ ['…'] else out

/-- The cut position of the `is_code` branch of `enforce_char_cap`
(`i = len(text[:max_chars])`, retreat, then `max(1, i)`). -/
def code_cut_idx (t : List Char) (max_chars : Nat) : Nat :=
  max 1 (retreatCut t (t.take max_chars).length)

/-- `enforce_char_cap` from `length_control.py` (strings only; the
non-string passthrough lives in `trim_value`). -/
def enforce_char_cap (t : List Char) (max_chars : Nat) (is_code : Bool) : List Char :=
  if t.length ≤ max_chars then balance_fences t
  else if is_code then balance_fences (rstripChars (t.take (code_cut_idx t max_chars)))
  else soft_cut t max_chars true

/-- `enforce_char_cap` on strings. -/
def enforce_char_cap_s (s : String) (max_chars : Nat) (is_code : Bool) : String :=
  ⟨enforce_char_cap s.data max_chars is_code⟩

/-- One `KEY_POLICY` entry. -/
structure KeyPolicy where
  type : String
  max_chars : Option Nat := none
  max_each : Option Nat := none
  max_count : Option Nat := none
  tail : Option Bool := none
deriving DecidableEq, Repr

/-- `KEY_POLICY.get(key, dflt)`. -/
def KEY_POLICY_get (k : String) (dflt : KeyPolicy) : KeyPolicy :=
  if k = "one_liner" then { type := "text", max_chars := some 140 }
  else if k = "summary_text" ∨ k = "plan_md" ∨ k = "body" ∨ k = "text" ∨
          k = "content" ∨ k = "answer" then { type := "text" }
  else if k = "code" ∨ k = "json" then { type := "code" }
  else if k = "bullets" then
    { type := "list", max_each := some 250, max_count := some 7, tail := some true }
  else if k = "outline" then
    { type := "list", max_each := some 120, max_count := some 10, tail := some true }
  else if k = "items" then
    { type := "list", max_each := some 200, max_count := some 10, tail := some true }
  else dflt

def SKIP_KEYS : List String := ["relevance", "faq", "domain"]

/-- `enforce_bullets` from `length_control.py`. -/
def enforce_bullets (lst : List String) (max_each max_count : Nat) (tail : Bool) : List String :=
  let out := (lst.take max_count).map (fun s => enforce_char_cap_s s max_each false)
  let remain := lst.length - max_count
  if tail ∧ 0 < remain then out ++ ["… (+" ++ toString remain ++ " more)"] else out

mutual
/-- An arbitrary JSON-like payload value (`Any` in `_trim_value`): `None`,
booleans, ints, floats (as rationals), strings, lists and dicts. -/
inductive PVal where
  | pnull
  | pbool (b : Bool)
  | pint (n : Int)
  | pfloat (q : ℚ)
  | pstr (s : String)
  | plist (xs : PListV)
  | pdict (es : PDictV)
inductive PListV where
  | nil
  | cons (x : PVal) (tl : PListV)
inductive PDictV where
  | nil
  | cons (k : String) (v : PVal) (tl : PDictV)
end

deriving instance DecidableEq for PVal, PListV, PDictV

/-- `all(isinstance(x, str) for x in value)`. -/
def allStrings : PListV → Bool
  | .nil => true
  | .cons x tl => (match x with | .pstr _ => true | _ => false) && allStrings tl

def toStrings : PListV → List String
  | .nil => []
  | .cons (.pstr s) tl => s :: toStrings tl
  | .cons _ tl => toStrings tl

def ofStrings : List String → PListV
  | [] => .nil
  | s :: tl => .cons (.pstr s) (ofStrings tl)

/-- `token_cap` truthiness (`if not is_code and token_cap:`). -/
def tokenTruthy : Option Int → Bool
  | none => false
  | some t => decide (t ≠ 0)

mutual
/-- `_trim_value` from `length_control.py` (with `trim_listv` and
`trim_dictv` for the element-wise and value-wise recursions). -/
def trim_value (key : Option String) (v : PVal) (style_chars : Option Nat)
    (global_cap : Nat) (token_cap : Option Int) : PVal :=
  match v with
  | .pstr s =>
    let policy := KEY_POLICY_get (key.getD "") { type := "text" }
    let is_code := policy.type = "code"
    let txt := if ¬ is_code ∧ tokenTruthy token_cap then enforce_token_cap s token_cap else s
    let cap_chars := min (policy.max_chars.getD (style_chars.getD global_cap)) global_cap
    .pstr (enforce_char_cap_s txt cap_chars is_code)
  | .plist xs =>
    if allStrings xs then
      let policy := KEY_POLICY_get (key.getD "") { type := "list" }
      let each := min (policy.max_each.getD (style_chars.getD 250)) 250
      let cnt := policy.max_count.getD 7
      let tail := policy.tail.getD false
      .plist (ofStrings (enforce_bullets (toStrings xs) each cnt tail))
    else .plist (trim_listv key xs style_chars global_cap token_cap)
  | .pdict es => .pdict (trim_dictv es style_chars global_cap token_cap)
  | x => x

def trim_listv (key : Option String) (xs : PListV) (style_chars : Option Nat)
    (global_cap : Nat) (token_cap : Option Int) : PListV :=
  match xs with
  | .nil => .nil
  | .cons x tl =>
    .cons (trim_value key x style_chars global_cap token_cap)
      (trim_listv key tl style_chars global_cap token_cap)

def trim_dictv (es : PDictV) (style_chars : Option Nat)
    (global_cap : Nat) (token_cap : Option Int) : PDictV :=
  match es with
  | .nil => .nil
  | .cons k v tl =>
    if SKIP_KEYS.contains k then
      .cons k v (trim_dictv tl style_chars global_cap token_cap)
    else
      .cons k (trim_value (some k) v style_chars global_cap token_cap)
        (trim_dictv tl style_chars global_cap token_cap)
end

/-- The `style_chars` computed by `trim_payload`. -/
def style_chars_of (length_style : Option String) : Option Nat :=
  match length_style with
  | some st => LENGTH_PRESETS_chars st
  | none => none

/-- The conservative `min` merge of `max_tokens` and the style's token
preset computed by `trim_payload`. -/
def token_cap_of (length_style : Option String) (max_tokens : Option Int) : Option Int :=
  let style_tokens : Option Int :=
    match length_style with
    | some st => LENGTH_PRESETS_tokens st
    | none => none
  match max_tokens, style_tokens with
  | none, none => none
  | some a, none => some a
  | none, some b => some b
  | some a, some b => some (min a b)

/-- `trim_payload` from `length_control.py`. -/
def trim_payload (payload : PVal) (length_style : Option String) (max_chars : Nat)
    (max_tokens : Option Int) : PVal :=
  trim_value none payload (style_chars_of length_style) max_chars
    (token_cap_of length_style max_tokens)

/-! ## Configuration coercion and `apply_length_control` -/

/-- A value found in the caller-supplied parameter bag (`params.get(...)`);
`vnone` covers both a missing key and an explicit `None`. -/
inductive ConfigVal where
  | vnone
  | vbool (b : Bool)
  | vint (n : Int)
  | vfloat (q : ℚ)
  | vstr (s : String)
deriving DecidableEq, Repr

/-- Python's `int(x)` on a float: truncation toward zero. -/
def truncQ (q : ℚ) : Int :=
  if 0 ≤ q then ⌊q⌋ else ⌈q⌉

/-- Models `float(v)` for plain decimal literals (optional sign, digits,
optional fractional part).  Python also accepts exponents, underscores and
`inf`/`nan`; no claim exercises those, and every string outside this
grammar is treated as a parse failure, which is exactly what the
surrounding `try/except` turns it into. -/
def parseDecimal (s : String) : Option ℚ :=
  let l := s.data
  let signAndRest : ℚ × List Char :=
    match l with
    | '-' :: tl => (-1, tl)
    | '+' :: tl => (1, tl)
    | _ => (1, l)
  let intPart := signAndRest.2.takeWhile Char.isDigit
  let rest := signAndRest.2.dropWhile Char.isDigit
  let natVal : List Char → ℚ := fun ds =>
    ((ds.foldl (fun acc c => acc * 10 + (c.toNat - 48)) 0 : Nat) : ℚ)
  match rest with
  | [] => if intPart.isEmpty then none else some (signAndRest.1 * natVal intPart)
  | '.' :: frac =>
    if frac.all Char.isDigit ∧ ¬ (intPart.isEmpty ∧ frac.isEmpty) then
      some (signAndRest.1 * (natVal intPart + natVal frac / ((10 : ℚ) ^ frac.length)))
    else none
  | _ => none

/-- `_to_int` from `length_control.py` (`str.strip` modelled by
`pyStrip`; the `except → default` of `int(float(v))` is the `none` branch
of `parseDecimal`). -/
def to_int (val : ConfigVal) (dflt : Option Int) : Option Int :=
  match val with
  | .vnone => dflt
  | .vbool b => some (if b then 1 else 0)
  | .vint n => some n
  | .vfloat q => some (truncQ q)
  | .vstr s =>
    let v := pyStrip s
    if v = "" then dflt
    else
      match parseDecimal v with
      | some q => some (truncQ q)
      | none => dflt

/-- The effective global character cap computed by `apply_length_control`:
`_to_int(params.get("max_chars"), 4000) or 4000`, then the
`if global_cap <= 0: global_cap = 4000` guard.  (With an `int` default the
`_to_int` result is never `None`, so `getD` only restates that.) -/
def resolve_global_cap (max_chars : ConfigVal) : Int :=
  let g0 := (to_int max_chars (some 4000)).getD 4000
  let g1 := if g0 = 0 then 4000 else g0
  if g1 ≤ 0 then 4000 else g1

/-- The effective token cap computed by `apply_length_control`:
`_to_int(params.get("max_tokens"), None)`, then the
`if token_cap is not None and token_cap <= 0: token_cap = None` guard. -/
def resolve_token_cap (max_tokens : ConfigVal) : Option Int :=
  match to_int max_tokens none with
  | none => none
  | some t => if t ≤ 0 then none else some t

def USER_HINTS : List (String × List String) :=
  [("one_line", ["한줄", "한 줄", "슬로건", "엘리베이터", "한문장", "한 문장"]),
   ("short", ["짧게", "간단히", "요약", "핵심만"]),
   ("medium", ["보통", "중간", "적당히"]),
   ("long", ["길게", "자세히", "상세히", "보고서", "전체 초안", "풀버전"])]

/-- `detect_user_style` from `length_control.py`. -/
def detect_user_style (user_query : String) : Option String :=
  (USER_HINTS.find? (fun p => p.2.any (fun h => containsSubS user_query h))).map (fun p => p.1)

/-- `auto_classify_style` from `length_control.py`. -/
def auto_classify_style (user_query : String) : String :=
  if ["슬로건", "한줄", "한 문장"].any (fun k => containsSubS user_query k) then "one_line"
  else if ["요약", "핵심"].any (fun k => containsSubS user_query k) then "short"
  else if ["전체", "초안", "보고서"].any (fun k => containsSubS user_query k) then "long"
  else "medium"

/-- `decide_length_style` (the `or default` is unreachable because
`auto_classify_style` never returns a falsy string). -/
def decide_length_style (user_query : String) : String :=
  (detect_user_style user_query).getD (auto_classify_style user_query)

/-- `apply_length_control` from `length_control.py`, as a pure function of
the pieces of `state` it reads; returns the trimmed outputs and the style
it records back into `params` (`params.get("length_style") or
decide_length_style(query)` — the empty string is falsy). -/
def apply_length_control (query : String) (length_style : Option String)
    (max_chars max_tokens : ConfigVal) (outputs : PVal) : PVal × String :=
  let style :=
    match length_style with
    | some st => if st = "" then decide_length_style query else st
    | none => decide_length_style query
  let global_cap := resolve_global_cap max_chars
  let token_cap := resolve_token_cap max_tokens
  (trim_payload outputs (some style) global_cap.toNat token_cap, style)

/-! ## Counting and substring lemmas -/

theorem countSubAux_eq_drop (needle l : List Char) (s : Nat) :
    countSubAux needle l s = countSub (l.drop s) needle := by
  induction l generalizing s with
  | nil => simp [countSubAux, countSub]
  | cons c tl ih =>
    cases s with
    | zero => rfl
    | succ s => simpa [countSubAux] using ih s

theorem countSub_nil (needle : List Char) : countSub [] needle = 0 := rfl

/-- The one-step unfolding of the greedy scan. -/
theorem countSub_cons (c : Char) (tl needle : List Char) :
    countSub (c :: tl) needle =
      if needle ≠ [] ∧ needle.isPrefixOf (c :: tl) then
        1 + countSub ((c :: tl).drop needle.length) needle
      else countSub tl needle := by
  show countSubAux needle (c :: tl) 0 = _
  rw [countSubAux]
  split
  · next h =>
    rw [countSubAux_eq_drop]
    have hlen : needle.length ≠ 0 := by
      intro h0
      exact h.1 (List.eq_nil_of_length_eq_zero h0)
    obtain ⟨k, hk⟩ : ∃ k, needle.length = k + 1 := ⟨needle.length - 1, by omega⟩
    rw [hk]
    simp
  · rw [countSubAux_eq_drop]
    simp

theorem containsSub_nil_right (l : List Char) : containsSub l [] = true := by
  cases l <;> simp [containsSub, List.isPrefixOf]

theorem isPrefixOf_append_extend {p l r : List Char} (h : p.isPrefixOf l = true) :
    p.isPrefixOf (l ++ r) = true := by
  induction p generalizing l with
  | nil => simp [List.isPrefixOf]
  | cons q qs ih =>
    match l with
    | [] => simp [List.isPrefixOf] at h
    | y :: l =>
      simp only [List.cons_append, List.isPrefixOf, Bool.and_eq_true] at h ⊢
      exact ⟨h.1, ih h.2⟩

theorem containsSub_append_extend {l r p : List Char} (h : containsSub l p = true) :
    containsSub (l ++ r) p = true := by
  induction l with
  | nil =>
    simp only [containsSub, List.isEmpty_iff] at h
    subst h
    exact containsSub_nil_right r
  | cons c tl ih =>
    simp only [containsSub, Bool.or_eq_true] at h ⊢
    rcases h with h | h
    · exact Or.inl (isPrefixOf_append_extend h)
    · exact Or.inr (ih h)

theorem containsSub_append_of_right {l r p : List Char} (h : containsSub r p = true) :
    containsSub (l ++ r) p = true := by
  induction l with
  | nil => simpa using h
  | cons c tl ih =>
    simp only [containsSub, Bool.or_eq_true]
    exact Or.inr ih

theorem containsSub_take {l p : List Char} {n : Nat}
    (h : containsSub (l.take n) p = true) : containsSub l p = true := by
  have := @containsSub_append_extend _ (l.drop n) _ h
  rwa [List.take_append_drop] at this

theorem countSub_eq_zero_of_not_contains {l p : List Char}
    (h : containsSub l p = false) : countSub l p = 0 := by
  induction l with
  | nil => rfl
  | cons c tl ih =>
    simp only [containsSub, Bool.or_eq_false_iff] at h
    rw [countSub_cons, if_neg]
    · exact ih h.2
    · rintro ⟨-, h2⟩
      rw [h.1] at h2
      cases h2

theorem isPrefixOf_length_le {p l : List Char} (h : p.isPrefixOf l = true) :
    p.length ≤ l.length := by
  induction p generalizing l with
  | nil => simp
  | cons q qs ih =>
    match l with
    | [] => simp [List.isPrefixOf] at h
    | y :: l =>
      simp only [List.isPrefixOf, Bool.and_eq_true] at h
      simpa using ih h.2

theorem countSub_eq_zero_of_short {l p : List Char} (h : l.length < p.length) :
    countSub l p = 0 := by
  induction l with
  | nil => rfl
  | cons c tl ih =>
    rw [countSub_cons, if_neg]
    · exact ih (by simp at h; omega)
    · rintro ⟨-, h2⟩
      have := isPrefixOf_length_le h2
      omega

/-- Appending an all-whitespace suffix cannot create or destroy a prefix
occurrence of a pattern whose characters are all non-whitespace. -/
theorem isPrefixOf_append_ws {p a b : List Char}
    (hpw : ∀ c ∈ p, c.isWhitespace = false) (hb : ∀ c ∈ b, c.isWhitespace = true) :
    p.isPrefixOf (a ++ b) = p.isPrefixOf a := by
  induction p generalizing a with
  | nil => simp [List.isPrefixOf]
  | cons q qs ih =>
    match a with
    | [] =>
      cases b with
      | nil => rfl
      | cons x xs =>
        show (q :: qs).isPrefixOf (x :: xs) = false
        simp only [List.isPrefixOf, Bool.and_eq_false_iff]
        left
        have h1 := hpw q (by simp)
        have h2 := hb x (by simp)
        simp only [beq_eq_false_iff_ne, ne_eq]
        intro he
        rw [he, h2] at h1
        cases h1
    | y :: a =>
      show (q :: qs).isPrefixOf (y :: (a ++ b)) = (q :: qs).isPrefixOf (y :: a)
      simp only [List.isPrefixOf]
      rw [ih (fun c hc => hpw c (by simp [hc]))]

theorem countSub_all_ws {b p : List Char} (hp : p ≠ [])
    (hpw : ∀ c ∈ p, c.isWhitespace = false)
    (hb : ∀ c ∈ b, c.isWhitespace = true) : countSub b p = 0 := by
  induction b with
  | nil => rfl
  | cons x xs ih =>
    rw [countSub_cons, if_neg]
    · exact ih (fun c hc => hb c (by simp [hc]))
    · rintro ⟨-, h2⟩
      match p, hp with
      | q :: qs, _ =>
        simp only [List.isPrefixOf, Bool.and_eq_true, beq_iff_eq] at h2
        have h1 := hpw q (by simp)
        have h3 := hb x (by simp)
        rw [h2.1, h3] at h1
        cases h1

/-- The greedy count ignores an all-whitespace suffix when the pattern has
no whitespace characters. -/
theorem countSub_append_ws {p : List Char} (hp : p ≠ [])
    (hpw : ∀ c ∈ p, c.isWhitespace = false) :
    ∀ n (a b : List Char), a.length ≤ n → (∀ c ∈ b, c.isWhitespace = true) →
      countSub (a ++ b) p = countSub a p := by
  intro n
  induction n with
  | zero =>
    intro a b ha hb
    have : a = [] := List.eq_nil_of_length_eq_zero (Nat.le_zero.mp ha)
    subst this
    simpa using countSub_all_ws hp hpw hb
  | succ n ih =>
    intro a b ha hb
    match a with
    | [] => simpa using countSub_all_ws hp hpw hb
    | c :: a =>
      rw [List.cons_append, countSub_cons, countSub_cons]
      have hpre : p.isPrefixOf (c :: (a ++ b)) = p.isPrefixOf (c :: a) := by
        rw [← List.cons_append]
        exact isPrefixOf_append_ws hpw hb
      by_cases hc : p.isPrefixOf (c :: a) = true
      · rw [if_pos ⟨hp, by rw [hpre]; exact hc⟩, if_pos ⟨hp, hc⟩]
        have hlen : p.length ≤ (c :: a).length := isPrefixOf_length_le hc
        have hdrop : (c :: (a ++ b)).drop p.length = (c :: a).drop p.length ++ b := by
          rw [← List.cons_append]
          exact List.drop_append_of_le_length hlen
        have hp1 : 1 ≤ p.length := List.length_pos.mpr hp
        have hrec := ih ((c :: a).drop p.length) b
          (by simp only [List.length_drop, List.length_cons] at ha ⊢; omega) hb
        rw [hdrop, hrec]
      · rw [if_neg, if_neg]
        · have : a.length ≤ n := by simp at ha; omega
          exact ih a b this hb
        · rintro ⟨-, h2⟩; exact hc h2
        · rintro ⟨-, h2⟩
          rw [hpre] at h2
          exact hc h2

/-! ## `rstrip` lemmas -/

theorem rstrip_decomp (l : List Char) :
    rstripChars l ++ (l.reverse.takeWhile Char.isWhitespace).reverse = l := by
  unfold rstripChars
  rw [← List.reverse_append, List.takeWhile_append_dropWhile, List.reverse_reverse]

theorem rstrip_suffix_ws (l : List Char) :
    ∀ c ∈ (l.reverse.takeWhile Char.isWhitespace).reverse, c.isWhitespace = true := by
  intro c hc
  rw [List.mem_reverse] at hc
  exact List.mem_takeWhile_imp hc

theorem rstrip_length_le (l : List Char) : (rstripChars l).length ≤ l.length := by
  conv_rhs => rw [← rstrip_decomp l]
  simp

theorem countSub_rstrip (l p : List Char) (hp : p ≠ [])
    (hpw : ∀ c ∈ p, c.isWhitespace = false) :
    countSub (rstripChars l) p = countSub l p := by
  conv_rhs => rw [← rstrip_decomp l]
  exact (countSub_append_ws hp hpw (rstripChars l).length _ _ le_rfl (rstrip_suffix_ws l)).symm

theorem containsSub_rstrip_false {l p : List Char}
    (h : containsSub l p = false) : containsSub (rstripChars l) p = false := by
  by_contra hne
  have htrue : containsSub (rstripChars l) p = true := by
    cases hc : containsSub (rstripChars l) p
    · exact absurd hc hne
    · rfl
  have := @containsSub_append_extend _ ((l.reverse.takeWhile Char.isWhitespace).reverse) _ htrue
  rw [rstrip_decomp] at this
  rw [this] at h
  cases h

/-! ## `soft_cut` analysis -/

theorem lastIdxWhere_lt_length {p : Char → Bool} {l : List Char} {j : Nat}
    (h : lastIdxWhere p l = some j) : j < l.length := by
  induction l generalizing j with
  | nil => cases h
  | cons c tl ih =>
    rw [lastIdxWhere] at h
    match hm : lastIdxWhere p tl with
    | some j0 =>
      rw [hm] at h
      cases h
      have := ih hm
      simp only [List.length_cons]
      omega
    | none =>
      rw [hm] at h
      by_cases hc : p c = true
      · rw [if_pos hc] at h
        cases h
        simp
      · rw [if_neg hc] at h
        cases h

theorem runStartFrom_le (l : List Char) (j : Nat) : runStartFrom l j ≤ j := by
  induction j with
  | zero => exact le_rfl
  | succ j ih =>
    rw [runStartFrom]
    split
    · omega
    · exact le_rfl

theorem lastWRunStart_lt_length {l : List Char} {s : Nat}
    (h : lastWRunStart l = some s) : s < l.length := by
  rw [lastWRunStart] at h
  match hm : lastIdxWhere isWB l with
  | none => rw [hm] at h; cases h
  | some j =>
    rw [hm] at h
    cases h
    have h1 := lastIdxWhere_lt_length hm
    have h2 := runStartFrom_le l j
    omega

theorem base_cut_le (snippet : List Char) : base_cut snippet ≤ snippet.length := by
  rw [base_cut]
  match hm : lastIdxWhere isCend snippet with
  | some j => exact lastIdxWhere_lt_length hm
  | none =>
    match hw : lastWRunStart snippet with
    | some s => exact le_of_lt (lastWRunStart_lt_length hw)
    | none => exact le_rfl

theorem retreatCut_le (t : List Char) (n : Nat) : retreatCut t n ≤ n := by
  induction n with
  | zero => exact le_rfl
  | succ n ih =>
    rw [retreatCut]
    split
    · omega
    · exact le_rfl

theorem retreatCut_spec (t : List Char) (n : Nat) :
    retreatCut t n = 0 ∨ inside_code_block t (retreatCut t n) = false := by
  induction n with
  | zero => exact Or.inl rfl
  | succ n ih =>
    rw [retreatCut]
    split
    · exact ih
    · next h =>
      right
      cases hb : inside_code_block t (n + 1)
      · rfl
      · exact absurd hb h

theorem containsSub_drop {l p : List Char} {n : Nat}
    (h : containsSub (l.drop n) p = true) : containsSub l p = true := by
  have := @containsSub_append_of_right (l.take n) _ _ h
  rwa [List.take_append_drop] at this

theorem backoff_noop {t : List Char} (cut : Nat)
    (hl : ∀ tok ∈ LINK_TOKENS, containsSub t tok = false) :
    backoff_link_boundary t cut = cut := by
  rw [backoff_link_boundary]
  rw [if_neg]
  intro hx
  rw [List.any_eq_true] at hx
  obtain ⟨tok, htok, hc⟩ := hx
  have h1 : containsSub (t.take cut) tok = true := containsSub_drop hc
  have h2 : containsSub t tok = true := containsSub_take h1
  rw [hl tok htok] at h2
  cases h2

theorem inside_eq_false_iff (t : List Char) (i : Nat) :
    inside_code_block t i = false ↔
      countSub (t.take i) FENCE_TRIPLE % 2 = 0 ∧
      countSub (t.take i) FENCE_TILDES % 2 = 0 := by
  rw [inside_code_block]
  rw [Bool.or_eq_false_iff]
  rw [decide_eq_false_iff_not, decide_eq_false_iff_not]
  omega

theorem inside_one_false (t : List Char) : inside_code_block t 1 = false := by
  rw [inside_eq_false_iff]
  have hlen : (t.take 1).length ≤ 1 := by
    rw [List.length_take]
    omega
  constructor
  · rw [countSub_eq_zero_of_short (by rw [show FENCE_TRIPLE.length = 3 from rfl]; omega)]
  · rw [countSub_eq_zero_of_short (by rw [show FENCE_TILDES.length = 3 from rfl]; omega)]

theorem soft_cut_idx_spec {t : List Char} {cap : Nat} (h2 : cap < t.length)
    (hl : ∀ tok ∈ LINK_TOKENS, containsSub t tok = false) :
    soft_cut_idx t cap ≤ max 1 cap ∧
    inside_code_block t (soft_cut_idx t cap) = false := by
  have hsnip : (t.take cap).length = cap := by
    rw [List.length_take]
    omega
  have hidx : soft_cut_idx t cap = max 1 (retreatCut t (base_cut (t.take cap))) := by
    rw [soft_cut_idx, backoff_noop _ hl]
    have hr : retreatCut t (base_cut (t.take cap)) ≤ (t.take cap).length :=
      le_trans (retreatCut_le _ _) (base_cut_le _)
    rw [min_eq_left hr]
  rw [hidx]
  constructor
  · have hr : retreatCut t (base_cut (t.take cap)) ≤ cap := by
      have := le_trans (retreatCut_le t (base_cut (t.take cap))) (base_cut_le (t.take cap))
      omega
    omega
  · rcases retreatCut_spec t (base_cut (t.take cap)) with h0 | hin
    · rw [h0]
      exact inside_one_false t
    · rcases Nat.eq_zero_or_pos (retreatCut t (base_cut (t.take cap))) with h0 | hpos
      · rw [h0]
        exact inside_one_false t
      · rw [max_eq_right hpos]
        exact hin

theorem code_cut_idx_spec {t : List Char} {cap : Nat} (h2 : cap < t.length) :
    code_cut_idx t cap ≤ max 1 cap ∧
    inside_code_block t (code_cut_idx t cap) = false := by
  have hsnip : (t.take cap).length = cap := by
    rw [List.length_take]
    omega
  rw [code_cut_idx, hsnip]
  constructor
  · have := retreatCut_le t cap
    omega
  · rcases retreatCut_spec t cap with h0 | hin
    · rw [h0]
      exact inside_one_false t
    · rcases Nat.eq_zero_or_pos (retreatCut t cap) with h0 | hpos
      · rw [h0]
        exact inside_one_false t
      · rw [max_eq_right hpos]
        exact hin

theorem fence_triple_no_ws : ∀ c ∈ FENCE_TRIPLE, c.isWhitespace = false := by decide

theorem fence_tildes_no_ws : ∀ c ∈ FENCE_TILDES, c.isWhitespace = false := by decide

theorem balance_noop {l : List Char} (h3 : countSub l FENCE_TRIPLE % 2 = 0)
    (h4 : countSub l FENCE_TILDES % 2 = 0) : balance_fences l = l := by
  simp only [balance_fences]
  rw [if_neg (show ¬ countSub l FENCE_TRIPLE % 2 = 1 by omega)]
  rw [if_neg (show ¬ countSub l FENCE_TILDES % 2 = 1 by omega)]

/-- Length and fence-count at a clean cut: the trimmed prefix, once
right-stripped, keeps the (even) fence counts of the cut prefix, so
`_balance_fences` appends nothing. -/
theorem cut_output_spec {t : List Char} {c : Nat}
    (hin : inside_code_block t c = false) :
    balance_fences (rstripChars (t.take c)) = rstripChars (t.take c) ∧
    (rstripChars (t.take c)).length ≤ c := by
  rw [inside_eq_false_iff] at hin
  constructor
  · refine balance_noop ?_ ?_
    · rw [countSub_rstrip _ _ (by decide) fence_triple_no_ws]
      exact hin.1
    · rw [countSub_rstrip _ _ (by decide) fence_tildes_no_ws]
      exact hin.2
  · refine le_trans (rstrip_length_le _) ?_
    rw [List.length_take]
    omega

/-- C2 (amended): for every positive cap, every over-cap input containing
no link-marker token is cut at a fence-even position in both modes; the
non-code result (ellipsis marker included) has length at most `cap + 1`,
and the code-mode result at most `cap`. -/
theorem C2_trim_respects_cap_and_fences (t : List Char) (cap : Nat)
    (h1 : 1 ≤ cap) (h2 : cap < t.length)
    (hl : ∀ tok ∈ LINK_TOKENS, containsSub t tok = false) :
    (enforce_char_cap t cap false).length ≤ cap + 1 ∧
    inside_code_block t (soft_cut_idx t cap) = false ∧
    (enforce_char_cap t cap true).length ≤ cap ∧
    inside_code_block t (code_cut_idx t cap) = false := by
  obtain ⟨hsle, hsin⟩ := soft_cut_idx_spec h2 hl
  obtain ⟨hcle, hcin⟩ := @code_cut_idx_spec t cap h2
  obtain ⟨hsb, hslen⟩ := cut_output_spec hsin
  obtain ⟨hcb, hclen⟩ := cut_output_spec hcin
  have hnle : ¬ t.length ≤ cap := by omega
  refine ⟨?_, hsin, ?_, hcin⟩
  · rw [enforce_char_cap, if_neg hnle, if_neg (by simp), soft_cut, if_neg hnle]
    rw [if_pos rfl, hsb, List.length_append]
    have : soft_cut_idx t cap ≤ cap := by omega
    simp only [List.length_cons, List.length_nil]
    omega
  · rw [enforce_char_cap, if_neg hnle, if_pos rfl, hcb]
    have : code_cut_idx t cap ≤ cap := by omega
    omega

/-- C2 (counterexample to the claim as stated): on
`"```a b```](q.zzzz"` with cap 13 the link-integrity backoff moves the cut
from position 13 back to the word boundary at position 4, which lies
inside the fenced block opened by the leading triple backtick. -/
theorem C2_cut_inside_fence_counterexample :
    13 < ("```a b```](q.zzzz".data).length ∧
    soft_cut_idx "```a b```](q.zzzz".data 13 = 4 ∧
    inside_code_block "```a b```](q.zzzz".data
      (soft_cut_idx "```a b```](q.zzzz".data 13) = true := by
  decide

/-- C2 witness: the amended theorem applied at a concrete link-free input. -/
theorem C2_trim_respects_cap_and_fences_witness :
    (1 ≤ 10 ∧ 10 < ("aaaa. bbbb cccc".data).length ∧
      (∀ tok ∈ LINK_TOKENS, containsSub "aaaa. bbbb cccc".data tok = false)) ∧
    ((enforce_char_cap "aaaa. bbbb cccc".data 10 false).length ≤ 10 + 1 ∧
     inside_code_block "aaaa. bbbb cccc".data
       (soft_cut_idx "aaaa. bbbb cccc".data 10) = false ∧
     (enforce_char_cap "aaaa. bbbb cccc".data 10 true).length ≤ 10 ∧
     inside_code_block "aaaa. bbbb cccc".data
       (code_cut_idx "aaaa. bbbb cccc".data 10) = false) :=
  ⟨⟨by decide, by decide, by decide⟩,
    C2_trim_respects_cap_and_fences _ 10 (by decide) (by decide) (by decide)⟩

/-! ## Bullets (`enforce_bullets`) -/

theorem containsSub_take_false {s p : List Char} {n : Nat}
    (h : containsSub s p = false) : containsSub (s.take n) p = false := by
  cases hc : containsSub (s.take n) p
  · rfl
  · rw [containsSub_take hc] at h
    cases h

theorem soft_cut_idx_le_cap {t : List Char} {cap : Nat} (h1 : 1 ≤ cap)
    (h2 : cap < t.length) : soft_cut_idx t cap ≤ cap := by
  have hsnip : (t.take cap).length = cap := by
    rw [List.length_take]
    omega
  rw [soft_cut_idx, hsnip]
  omega

/-- A string with no fence marker is trimmed to at most `cap` characters
plus the one-character ellipsis: every candidate cut prefix has zero fence
occurrences, so `_balance_fences` appends nothing. -/
theorem enforce_no_fence_len {s : List Char} {cap : Nat} (h1 : 1 ≤ cap)
    (hf3 : containsSub s FENCE_TRIPLE = false)
    (hf4 : containsSub s FENCE_TILDES = false) :
    (enforce_char_cap s cap false).length ≤ cap + 1 := by
  have hbal : ∀ m : List Char, containsSub m FENCE_TRIPLE = false →
      containsSub m FENCE_TILDES = false → balance_fences m = m := by
    intro m hm3 hm4
    refine balance_noop ?_ ?_
    · rw [countSub_eq_zero_of_not_contains hm3]
    · rw [countSub_eq_zero_of_not_contains hm4]
  rw [enforce_char_cap]
  by_cases hle : s.length ≤ cap
  · rw [if_pos hle, hbal s hf3 hf4]
    omega
  · rw [if_neg hle, if_neg (by simp), soft_cut, if_neg hle, if_pos rfl]
    have hcut : soft_cut_idx s cap ≤ cap := soft_cut_idx_le_cap h1 (by omega)
    rw [hbal _ (containsSub_rstrip_false (containsSub_take_false hf3))
          (containsSub_rstrip_false (containsSub_take_false hf4))]
    rw [List.length_append]
    have hr := rstrip_length_le (s.take (soft_cut_idx s cap))
    have ht : (s.take (soft_cut_idx s cap)).length ≤ soft_cut_idx s cap := by
      rw [List.length_take]
      omega
    simp only [List.length_cons, List.length_nil]
    omega

theorem allStrings_ofStrings (l : List String) : allStrings (ofStrings l) = true := by
  induction l with
  | nil => rfl
  | cons s tl ih => simp [ofStrings, allStrings, ih]

theorem toStrings_ofStrings (l : List String) : toStrings (ofStrings l) = l := by
  induction l with
  | nil => rfl
  | cons s tl ih => simp [ofStrings, toStrings, ih]

theorem string_length_mk (l : List Char) : (String.mk l).length = l.length := rfl

theorem enforce_bullets_eight (l : List String) (hlen : l.length = 8) :
    enforce_bullets l 250 7 true =
      (l.take 7).map (fun s => enforce_char_cap_s s 250 false) ++ ["… (+1 more)"] := by
  rw [enforce_bullets, hlen]
  norm_num
  decide

/-- C6 (amended): a `bullets` payload of 8 fence-free strings (one of them
300 characters long) trims to exactly 7 content entries, each of at most
251 characters (250 plus the ellipsis marker), followed by the trailing
"… (+1 more)" marker entry. -/
theorem C6_bullets_trim (l : List String) (hlen : l.length = 8)
    (h300 : ∃ s ∈ l, s.length = 300)
    (hf : ∀ s ∈ l, containsSub s.data FENCE_TRIPLE = false ∧
                   containsSub s.data FENCE_TILDES = false) :
    trim_payload (.pdict (.cons "bullets" (.plist (ofStrings l)) .nil)) none 4000 none
      = .pdict (.cons "bullets" (.plist (ofStrings
          ((l.take 7).map (fun s => enforce_char_cap_s s 250 false) ++ ["… (+1 more)"]))) .nil) ∧
    ∀ s ∈ (l.take 7).map (fun s => enforce_char_cap_s s 250 false), s.length ≤ 251 := by
  constructor
  · simp only [trim_payload, style_chars_of, token_cap_of, trim_value, trim_dictv,
      SKIP_KEYS, List.contains_cons, beq_iff_eq, allStrings_ofStrings, if_pos,
      toStrings_ofStrings, KEY_POLICY_get]
    norm_num [enforce_bullets_eight l hlen]
    simp
    rw [enforce_bullets_eight l hlen, List.map_take]
  · intro s hs
    rw [List.mem_map] at hs
    obtain ⟨s0, hs0, rfl⟩ := hs
    have hs0l : s0 ∈ l := List.mem_of_mem_take hs0
    obtain ⟨hf3, hf4⟩ := hf s0 hs0l
    rw [enforce_char_cap_s, string_length_mk]
    exact enforce_no_fence_len (by omega) hf3 hf4

/-- C6 witness: the amended theorem applied at the concrete payload with a
300-character first entry. -/
theorem C6_bullets_trim_witness :
    ((⟨List.replicate 300 'a'⟩ : String) :: ["b", "b", "b", "b", "b", "b", "b"]).length = 8 ∧
    (trim_payload (.pdict (.cons "bullets" (.plist (ofStrings
        ((⟨List.replicate 300 'a'⟩ : String) :: ["b", "b", "b", "b", "b", "b", "b"]))) .nil)) none 4000 none
      = .pdict (.cons "bullets" (.plist (ofStrings
          ((((⟨List.replicate 300 'a'⟩ : String) :: ["b", "b", "b", "b", "b", "b", "b"]).take 7).map
              (fun s => enforce_char_cap_s s 250 false) ++ ["… (+1 more)"]))) .nil) ∧
     ∀ s ∈ ((((⟨List.replicate 300 'a'⟩ : String) :: ["b", "b", "b", "b", "b", "b", "b"]).take 7).map
         (fun s => enforce_char_cap_s s 250 false)), s.length ≤ 251) :=
  ⟨by decide,
   C6_bullets_trim _ (by decide)
     ⟨⟨List.replicate 300 'a'⟩, by simp, by decide⟩
     (by decide)⟩

/-- C6 (counterexample to "each at most 250 characters" in the claim as
stated): the 300-character entry is hard-cut at 250 characters and then
receives the ellipsis, giving 251. -/
theorem C6_entry_251_counterexample :
    ((enforce_bullets ((⟨List.replicate 300 'a'⟩ : String) :: ["b", "b", "b", "b", "b", "b", "b"])
        250 7 true).getD 0 "").length = 251 := by
  decide

/-! ## Fixed points of the trimmer -/

/-- A string the character-cap pass leaves unchanged: within the cap and
fence-balanced (so `_balance_fences` appends nothing). -/
def strCharFixed (s : String) (cap : Nat) : Bool :=
  decide (s.length ≤ cap) &&
  decide (countSub s.data FENCE_TRIPLE % 2 = 0) &&
  decide (countSub s.data FENCE_TILDES % 2 = 0)

/-- A string the token pass leaves unchanged. -/
def tokenFixed (s : String) (tc : Option Int) : Bool :=
  match tc with
  | none => true
  | some m => decide (m ≤ 0) || decide (((splitWs s.data).length : Int) ≤ m)

mutual
/-- Payloads `_trim_value` leaves unchanged under the given key and caps:
every string is within its effective cap, fence-balanced and within the
token budget; every homogeneous string list is within its count cap with
each entry within the entry cap; dict entries recurse (skip keys are
always fixed). -/
def valFixed (key : Option String) (sc : Option Nat) (gc : Nat) (tc : Option Int) : PVal → Bool
  | .pstr s =>
    let policy := KEY_POLICY_get (key.getD "") { type := "text" }
    let is_code := policy.type = "code"
    let cap := min (policy.max_chars.getD (sc.getD gc)) gc
    (is_code || tokenFixed s tc) && strCharFixed s cap
  | .plist xs =>
    if allStrings xs then
      let policy := KEY_POLICY_get (key.getD "") { type := "list" }
      let each := min (policy.max_each.getD (sc.getD 250)) 250
      let cnt := policy.max_count.getD 7
      decide ((toStrings xs).length ≤ cnt) &&
        (toStrings xs).all (fun s => strCharFixed s each)
    else listFixed key sc gc tc xs
  | .pdict es => dictFixed sc gc tc es
  | _ => true

def listFixed (key : Option String) (sc : Option Nat) (gc : Nat) (tc : Option Int) : PListV → Bool
  | .nil => true
  | .cons x tl => valFixed key sc gc tc x && listFixed key sc gc tc tl

def dictFixed (sc : Option Nat) (gc : Nat) (tc : Option Int) : PDictV → Bool
  | .nil => true
  | .cons k v tl =>
    (if SKIP_KEYS.contains k then true else valFixed (some k) sc gc tc v) &&
      dictFixed sc gc tc tl
end

theorem string_eta (s : String) : String.mk s.data = s := rfl

theorem enforce_token_cap_fixed {s : String} {tc : Option Int}
    (h : tokenFixed s tc = true) : enforce_token_cap s tc = s := by
  match tc with
  | none => rfl
  | some m =>
    rw [enforce_token_cap]
    simp only [tokenFixed, Bool.or_eq_true, decide_eq_true_eq] at h
    rcases h with h | h
    · rw [if_pos h]
    · by_cases hm : m ≤ 0
      · rw [if_pos hm]
      · rw [if_neg hm, if_pos h]

theorem enforce_char_cap_fixed {s : String} {cap : Nat} (is_code : Bool)
    (h : strCharFixed s cap = true) : enforce_char_cap_s s cap is_code = s := by
  simp only [strCharFixed, Bool.and_eq_true, decide_eq_true_eq] at h
  obtain ⟨⟨h1, h2⟩, h3⟩ := h
  have h1d : s.data.length ≤ cap := h1
  rw [enforce_char_cap_s, enforce_char_cap, if_pos h1d, balance_noop h2 h3]

theorem ofStrings_toStrings : ∀ {xs : PListV}, allStrings xs = true →
    ofStrings (toStrings xs) = xs
  | .nil, _ => rfl
  | .cons (.pstr s) tl, h => by
    simp only [allStrings, Bool.and_eq_true] at h
    simp [toStrings, ofStrings, ofStrings_toStrings h.2]
  | .cons .pnull tl, h => by simp [allStrings] at h
  | .cons (.pbool _) tl, h => by simp [allStrings] at h
  | .cons (.pint _) tl, h => by simp [allStrings] at h
  | .cons (.pfloat _) tl, h => by simp [allStrings] at h
  | .cons (.plist _) tl, h => by simp [allStrings] at h
  | .cons (.pdict _) tl, h => by simp [allStrings] at h

theorem enforce_bullets_fixed {l : List String} {each cnt : Nat} {tail : Bool}
    (hlen : l.length ≤ cnt)
    (hall : ∀ s ∈ l, strCharFixed s each = true) :
    enforce_bullets l each cnt tail = l := by
  rw [enforce_bullets]
  have htake : l.take cnt = l := List.take_of_length_le hlen
  rw [htake]
  have hmap : l.map (fun s => enforce_char_cap_s s each false) = l := by
    have : l.map (fun s => enforce_char_cap_s s each false) = l.map id := by
      apply List.map_congr_left
      intro s hs
      exact enforce_char_cap_fixed false (hall s hs)
    rw [this, List.map_id]
  rw [hmap, if_neg]
  rintro ⟨-, hrem⟩
  omega

mutual
theorem trim_value_fixed (key : Option String) (sc : Option Nat) (gc : Nat)
    (tc : Option Int) : ∀ v, valFixed key sc gc tc v = true →
    trim_value key v sc gc tc = v
  | .pnull, _ => rfl
  | .pbool _, _ => rfl
  | .pint _, _ => rfl
  | .pfloat _, _ => rfl
  | .pstr s, h => by
    simp only [trim_value]
    simp only [valFixed, Bool.and_eq_true, Bool.or_eq_true] at h
    by_cases hcode : (KEY_POLICY_get (key.getD "") { type := "text" }).type = "code"
    · rw [if_neg (by rintro ⟨h1, -⟩; exact h1 hcode)]
      rw [enforce_char_cap_fixed _ h.2]
    · have htok : tokenFixed s tc = true := by
        rcases h.1 with h1 | h1
        · rw [decide_eq_true_eq] at h1
          exact absurd h1 hcode
        · exact h1
      by_cases htr : tokenTruthy tc = true
      · rw [if_pos ⟨hcode, htr⟩, enforce_token_cap_fixed htok,
          enforce_char_cap_fixed _ h.2]
      · rw [if_neg (by rintro ⟨-, h2⟩; exact htr h2), enforce_char_cap_fixed _ h.2]
  | .plist xs, h => by
    simp only [trim_value]
    simp only [valFixed] at h
    by_cases hall : allStrings xs = true
    · rw [if_pos hall]
      rw [if_pos hall] at h
      simp only [Bool.and_eq_true, decide_eq_true_eq, List.all_eq_true] at h
      rw [enforce_bullets_fixed h.1 h.2, ofStrings_toStrings hall]
    · rw [if_neg hall]
      rw [if_neg hall] at h
      rw [trim_listv_fixed key sc gc tc xs h]
  | .pdict es, h => by
    simp only [trim_value]
    simp only [valFixed] at h
    rw [trim_dictv_fixed sc gc tc es h]

theorem trim_listv_fixed (key : Option String) (sc : Option Nat) (gc : Nat)
    (tc : Option Int) : ∀ xs, listFixed key sc gc tc xs = true →
    trim_listv key xs sc gc tc = xs
  | .nil, _ => rfl
  | .cons x tl, h => by
    simp only [listFixed, Bool.and_eq_true] at h
    rw [trim_listv, trim_value_fixed key sc gc tc x h.1,
      trim_listv_fixed key sc gc tc tl h.2]

theorem trim_dictv_fixed (sc : Option Nat) (gc : Nat) (tc : Option Int) :
    ∀ es, dictFixed sc gc tc es = true → trim_dictv es sc gc tc = es
  | .nil, _ => rfl
  | .cons k v tl, h => by
    simp only [dictFixed, Bool.and_eq_true] at h
    rw [trim_dictv]
    by_cases hk : SKIP_KEYS.contains k = true
    · rw [if_pos hk, trim_dictv_fixed sc gc tc tl h.2]
    · rw [if_neg hk]
      rw [if_neg hk] at h
      rw [trim_value_fixed (some k) sc gc tc v h.1, trim_dictv_fixed sc gc tc tl h.2]
end

/-- C3 (amended): the Length Governor is the identity — hence idempotent —
on payloads whose strings already fit their effective character caps with
balanced fences and within the token budget, and whose homogeneous string
lists fit their count caps; in general a second application can differ,
because `_balance_fences` may grow a string at its cap past the cap. -/
theorem C3_trim_fixed_point (payload : PVal) (style : Option String) (mc : Nat)
    (mt : Option Int)
    (h : valFixed none (style_chars_of style) mc (token_cap_of style mt) payload = true) :
    trim_payload payload style mc mt = payload ∧
    trim_payload (trim_payload payload style mc mt) style mc mt
      = trim_payload payload style mc mt := by
  have hid : trim_payload payload style mc mt = payload :=
    trim_value_fixed none (style_chars_of style) mc (token_cap_of style mt) payload h
  exact ⟨hid, by rw [hid, hid]⟩

/-- C3 witness: the amended theorem applied at a concrete fitting payload
(style `medium`, so both a character and a token budget are active). -/
theorem C3_trim_fixed_point_witness :
    valFixed none (style_chars_of (some "medium")) 4000
        (token_cap_of (some "medium") none)
        (.pdict (.cons "body" (.pstr "hello world") .nil)) = true ∧
    (trim_payload (.pdict (.cons "body" (.pstr "hello world") .nil)) (some "medium") 4000 none
        = .pdict (.cons "body" (.pstr "hello world") .nil) ∧
     trim_payload (trim_payload (.pdict (.cons "body" (.pstr "hello world") .nil))
          (some "medium") 4000 none) (some "medium") 4000 none
        = trim_payload (.pdict (.cons "body" (.pstr "hello world") .nil))
            (some "medium") 4000 none) :=
  ⟨by decide, C3_trim_fixed_point _ (some "medium") 4000 none (by decide)⟩

/-- C3 (counterexample to idempotence as claimed): a 10-character string
holding one unterminated fence, under a global cap of 10 and no style.
The first pass only re-balances the fences — growing the value to 14
characters — so the second pass soft-cuts it and produces a different
payload. -/
theorem C3_not_idempotent_counterexample :
    trim_payload (trim_payload (.pstr "aaaaaaa```") none 10 none) none 10 none
      ≠ trim_payload (.pstr "aaaaaaa```") none 10 none := by
  decide

/-! ## Shape preservation -/

mutual
/-- The shape relation of C9: strings map to strings; a homogeneous
string list (the `enforce_bullets` branch of `_trim_value`) maps to a
homogeneous string list; every other list maps to a list of the same
length related element by element; non-string scalars are unchanged;
and dicts keep exactly their keys entry-by-entry, with skip-key values
passed through verbatim and all other values recursively
shape-preserved. -/
def shapePreserved : PVal → PVal → Bool
  | .pnull, w => w == .pnull
  | .pbool b, w => w == .pbool b
  | .pint n, w => w == .pint n
  | .pfloat q, w => w == .pfloat q
  | .pstr _, w => match w with | .pstr _ => true | _ => false
  | .plist xs, w =>
    match w with
    | .plist ys => if allStrings xs then allStrings ys else listShape xs ys
    | _ => false
  | .pdict es, w => match w with | .pdict fs => dictShape es fs | _ => false

def listShape : PListV → PListV → Bool
  | .nil, .nil => true
  | .cons x tl, .cons y tl2 => shapePreserved x y && listShape tl tl2
  | .nil, .cons _ _ => false
  | .cons _ _, .nil => false

def dictShape : PDictV → PDictV → Bool
  | .nil, .nil => true
  | .cons k v tl, .cons k2 v2 tl2 =>
    (k == k2) &&
      (if SKIP_KEYS.contains k then v2 == v else shapePreserved v v2) &&
      dictShape tl tl2
  | .nil, .cons _ _ _ => false
  | .cons _ _ _, .nil => false
end

mutual
theorem trim_value_shape (key : Option String) (sc : Option Nat) (gc : Nat)
    (tc : Option Int) : ∀ v, shapePreserved v (trim_value key v sc gc tc) = true
  | .pnull => by simp [trim_value, shapePreserved]
  | .pbool _ => by simp [trim_value, shapePreserved]
  | .pint _ => by simp [trim_value, shapePreserved]
  | .pfloat _ => by simp [trim_value, shapePreserved]
  | .pstr s => by simp [trim_value, shapePreserved]
  | .plist xs => by
    simp only [trim_value]
    by_cases hall : allStrings xs = true
    · rw [if_pos hall]
      simp only [shapePreserved]
      rw [if_pos hall]
      exact allStrings_ofStrings _
    · rw [if_neg hall]
      simp only [shapePreserved]
      rw [if_neg hall]
      exact trim_listv_shape key sc gc tc xs
  | .pdict es => by
    simp only [trim_value, shapePreserved]
    exact trim_dictv_shape sc gc tc es

theorem trim_listv_shape (key : Option String) (sc : Option Nat) (gc : Nat)
    (tc : Option Int) : ∀ xs, listShape xs (trim_listv key xs sc gc tc) = true
  | .nil => rfl
  | .cons x tl => by
    rw [trim_listv]
    simp only [listShape, Bool.and_eq_true]
    exact ⟨trim_value_shape key sc gc tc x, trim_listv_shape key sc gc tc tl⟩

theorem trim_dictv_shape (sc : Option Nat) (gc : Nat) (tc : Option Int) :
    ∀ es, dictShape es (trim_dictv es sc gc tc) = true
  | .nil => rfl
  | .cons k v tl => by
    rw [trim_dictv]
    by_cases hk : SKIP_KEYS.contains k = true
    · rw [if_pos hk]
      simp only [dictShape, hk, if_pos, Bool.and_eq_true, beq_iff_eq]
      exact ⟨⟨trivial, trivial⟩, trim_dictv_shape sc gc tc tl⟩
    · rw [if_neg hk]
      simp only [dictShape, Bool.and_eq_true, beq_iff_eq]
      rw [if_neg hk]
      exact ⟨⟨trivial, trim_value_shape (some k) sc gc tc v⟩, trim_dictv_shape sc gc tc tl⟩
end

/-- C9: `trim_payload` preserves the structural shape of its input at
every depth — maps keep exactly their keys, a homogeneous string list
becomes a homogeneous string list, every other sequence keeps its length
with each element recursively shape-preserved, strings stay strings,
non-string scalars pass through unchanged, and the values of the metadata
keys (`relevance`, `faq`, `domain`) pass through completely unmodified. -/
theorem C9_trim_preserves_shape (payload : PVal) (style : Option String)
    (mc : Nat) (mt : Option Int) :
    shapePreserved payload (trim_payload payload style mc mt) = true :=
  trim_value_shape none (style_chars_of style) mc (token_cap_of style mt) payload

/-! ## Router invariant -/

def domainVia : Option DomainOut → Option String
  | some (.payload p) => some p.via
  | some (.explicitOut _ v) => some v
  | none => none

def domainConfidence : Option DomainOut → Option ℚ
  | some (.payload p) => some p.confidence
  | _ => none

/-- C4: on every turn not short-circuited by an explicit routing label, if
the produced `DomainDecision` has `isOnTopic = false` then its provenance
is `"unrelated"` and its confidence is at most 0.30. -/
theorem C4_offtopic_invariant (st : GraphState) (z : Option String)
    (hstep : st.step ∉ INTENTS)
    (hoff : domainIsOnTopic (domain_detect_node st z).outputs.domain = false) :
    domainVia (domain_detect_node st z).outputs.domain = some "unrelated" ∧
    ∃ c, domainConfidence (domain_detect_node st z).outputs.domain = some c ∧
      c ≤ 3/10 := by
  simp only [domain_detect_node] at hoff ⊢
  rw [if_neg hstep] at hoff ⊢
  by_cases hrel : (st.outputs.relevance.getD true) = true
  · rw [if_neg (by simp [hrel])] at hoff ⊢
    simp only [domainIsOnTopic] at hoff
    simp only [domainVia, domainConfidence]
    rw [hoff]
    simp only [Bool.false_eq_true, if_false]
    refine ⟨rfl, _, rfl, ?_⟩
    exact min_le_right _ _
  · rw [if_pos (by simp [hrel])] at hoff ⊢
    exact ⟨rfl, 3/10, rfl, le_refl _⟩

def C4_witness_state : GraphState :=
  { turns := [{ role := "user", content := "a" }], params := {},
    outputs := { relevance := some false }, step := "start" }

/-- C4 witness: the invariant applied on a concrete unrelated turn. -/
theorem C4_offtopic_invariant_witness :
    ("start" ∉ INTENTS) ∧
    domainIsOnTopic (domain_detect_node C4_witness_state none).outputs.domain = false ∧
    (domainVia (domain_detect_node C4_witness_state none).outputs.domain = some "unrelated" ∧
     ∃ c, domainConfidence (domain_detect_node C4_witness_state none).outputs.domain = some c ∧
       c ≤ 3/10) :=
  ⟨by decide, by rfl,
    C4_offtopic_invariant C4_witness_state none (by decide) (by rfl)⟩

/-! ## Invalid caller-resubmitted progress -/

/-- C10: on an on-topic turn whose resubmitted progress has an unknown
section or an out-of-range index, `current_question` returns `none` and
the node returns the terminal "end" output without raising and without
touching the answered set (the state, `params` included, is otherwise
returned unchanged). -/
theorem C10_invalid_progress_ends (st : GraphState) (p : Progress)
    (hon : domainIsOnTopic st.outputs.domain = true)
    (hp : st.params.script_progress = some p)
    (hbad : SECTION_ORDER_find p.section_ = none ∨ p.index < 0 ∨
      (∃ order, SECTION_ORDER_find p.section_ = some order ∧ (order.length : Int) ≤ p.index)) :
    current_question p (get_segment st) = none ∧
    script_qna_node st =
      .ok { st with outputs := { st.outputs with script := some endOut } } := by
  have hq : ∀ seg, current_question p seg = none := by
    intro seg
    rw [current_question]
    rcases hbad with h | h | ⟨order, ho, hlen⟩
    · rw [h]
    · cases hfind : SECTION_ORDER_find p.section_ with
      | none => rfl
      | some order => exact if_pos (Or.inr (Or.inl h))
    · rw [ho]
      exact if_pos (Or.inr (Or.inr hlen))
  refine ⟨hq _, ?_⟩
  rw [script_qna_node]
  rw [if_neg (by rw [hon]; simp)]
  simp only [hp, Option.getD, hq]
  cases hls : st.params.last_slot with
  | none =>
    simp only [pure_bind]
    rw [hq]
  | some a =>
    simp only [pure_bind]
    rw [hq]

def C10_witness_state : GraphState :=
  { turns := [{ role := "user", content := "ok" }],
    params := { script_progress := some { section_ := "E", index := 0, answered := ["x"] },
                last_slot := some "A1_problem" },
    outputs := { domain := some linearDomain }, step := "script_qna" }

/-- C10 witness: the theorem applied to a concrete invalid progress
(unknown section "E"). -/
theorem C10_invalid_progress_ends_witness :
    domainIsOnTopic C10_witness_state.outputs.domain = true ∧
    (current_question { section_ := "E", index := 0, answered := ["x"] }
        (get_segment C10_witness_state) = none ∧
     script_qna_node C10_witness_state =
       .ok { C10_witness_state with outputs :=
         { C10_witness_state.outputs with script := some endOut } }) :=
  ⟨by rfl,
    C10_invalid_progress_ends C10_witness_state _ (by rfl) (by rfl) (Or.inl (by rfl))⟩

/-! ## Malformed configuration -/

/-- The malformed cap values of C5 as amended: non-numeric strings, blank
strings, the boolean `False`, zero, and negatives.  `True` is excluded —
`_to_int` deliberately converts booleans with `int(val)`, so `True`
becomes the cap 1 instead of the default. -/
def MalformedCV : ConfigVal → Prop
  | .vstr s => pyStrip s = "" ∨ parseDecimal (pyStrip s) = none
  | .vbool b => b = false
  | .vint n => n ≤ 0
  | .vfloat q => q ≤ 0
  | .vnone => False

theorem truncQ_nonpos {q : ℚ} (h : q ≤ 0) : truncQ q ≤ 0 := by
  rw [truncQ]
  split
  · next h0 =>
    have hq : q = 0 := le_antisymm h h0
    simp [hq]
  · exact Int.ceil_le.mpr (by exact_mod_cast h)

/-- C5 (amended): every malformed cap value except the boolean `True` is
coerced to the defaults (4000 for the char cap, absent for the token cap),
and `True` is converted to the integer cap 1; `apply_length_control` never
raises (its embedding is a total function). -/
theorem C5_malformed_caps_coerced (v : ConfigVal) (h : MalformedCV v) :
    (resolve_global_cap v = 4000 ∧ resolve_token_cap v = none) ∧
    (resolve_global_cap (.vbool true) = 1 ∧ resolve_token_cap (.vbool true) = some 1) := by
  refine ⟨?_, by decide, by decide⟩
  match v, h with
  | .vstr s, h =>
    by_cases hstrip : pyStrip s = ""
    · constructor
      · simp [resolve_global_cap, to_int, hstrip]
      · simp [resolve_token_cap, to_int, hstrip]
    · have hparse : parseDecimal (pyStrip s) = none := by
        rcases h with h | h
        · exact absurd h hstrip
        · exact h
      constructor
      · simp [resolve_global_cap, to_int, hstrip, hparse]
      · simp [resolve_token_cap, to_int, hstrip, hparse]
  | .vbool b, h =>
    rw [show b = false from h]
    exact ⟨by decide, by decide⟩
  | .vint n, h =>
    have hn : n ≤ 0 := h
    constructor
    · simp only [resolve_global_cap, to_int, Option.getD]
      split_ifs <;> omega
    · simp only [resolve_token_cap, to_int]
      rw [if_pos hn]
  | .vfloat q, h =>
    have hq : q ≤ 0 := h
    have ht := truncQ_nonpos hq
    constructor
    · simp only [resolve_global_cap, to_int, Option.getD]
      split_ifs <;> omega
    · simp only [resolve_token_cap, to_int]
      rw [if_pos ht]

/-- C5 witness: the amended theorem applied to the non-numeric string
`"abc"`. -/
theorem C5_malformed_caps_coerced_witness :
    MalformedCV (.vstr "abc") ∧
    ((resolve_global_cap (.vstr "abc") = 4000 ∧ resolve_token_cap (.vstr "abc") = none) ∧
     (resolve_global_cap (.vbool true) = 1 ∧ resolve_token_cap (.vbool true) = some 1)) :=
  ⟨Or.inr (by decide), C5_malformed_caps_coerced (.vstr "abc") (Or.inr (by decide))⟩

/-- C5 (counterexample to the claim as stated): the boolean `True` — one of
the malformed values the claim covers — is coerced to the cap 1, not to
the defaults 4000 / absent. -/
theorem C5_true_cap_counterexample :
    resolve_global_cap (.vbool true) = 1 ∧ ((1 : Int) = 4000 → False) ∧
    resolve_token_cap (.vbool true) = some 1 := by
  decide

/-! ## `rule_segment` against its specification -/

/-- Written from the spec sentence for `rule_segment` (to be compared with
the embedded code): count keyword hits per segment; the highest count
wins, ties broken by the fixed priority camping > experience > sports;
none when no segment scored. -/
def spec_rule_segment (msg : String) : Option String :=
  let h1 := seg_hits msg "camping"
  let h2 := seg_hits msg "experience"
  let h3 := seg_hits msg "sports"
  if h1 = 0 ∧ h2 = 0 ∧ h3 = 0 then none
  else if h2 ≤ h1 ∧ h3 ≤ h1 then some "camping"
  else if h3 ≤ h2 then some "experience"
  else some "sports"

theorem rule_segment_eq_spec (msg : String) :
    rule_segment msg = spec_rule_segment msg := by
  rw [rule_segment, spec_rule_segment]
  simp only [SEGMENTS, List.map_cons, List.map_nil]
  by_cases c1 : 0 < seg_hits msg "camping" <;>
    by_cases c2 : 0 < seg_hits msg "experience" <;>
    by_cases c3 : 0 < seg_hits msg "sports" <;>
    simp [List.filter_cons, c1, c2, c3, maxBySegKey, tieOrder] <;>
    split_ifs <;>
    first
      | rfl
      | omega
      | (refine ⟨by omega, ?_⟩
         rfl)

/-- Hit counting through the normalizer only (`_keyword_match_any` with a
non-empty message). -/
def seg_hits_norm (t : String) (seg : String) : Nat :=
  ((SEGMENT_KEYWORDS seg).filter (fun w => containsSubS t (pyNorm w))).length

theorem seg_hits_eq_norm (m : String) (seg : String) :
    seg_hits m seg = if m = "" then 0 else seg_hits_norm (pyNorm m) seg := by
  rw [seg_hits, seg_hits_norm]
  by_cases hm : m = ""
  · subst hm
    simp [keyword_match_any]
  · rw [if_neg hm]
    congr 1
    apply List.filter_congr
    intro w _
    simp [keyword_match_any, hm]

theorem seg_hits_norm_empty (seg : String) : seg_hits_norm "" seg = 0 := by
  by_cases h1 : seg = "camping"
  · subst h1; decide
  by_cases h2 : seg = "experience"
  · subst h2; decide
  by_cases h3 : seg = "sports"
  · subst h3; decide
  rw [seg_hits_norm, SEGMENT_KEYWORDS, if_neg h1, if_neg h2, if_neg h3]
  rfl

theorem pyNorm_empty : pyNorm "" = "" := rfl

theorem seg_hits_norm_det (m1 m2 : String) (h : pyNorm m1 = pyNorm m2) (seg : String) :
    seg_hits m1 seg = seg_hits m2 seg := by
  rw [seg_hits_eq_norm, seg_hits_eq_norm]
  by_cases hm1 : m1 = "" <;> by_cases hm2 : m2 = ""
  · rw [if_pos hm1, if_pos hm2]
  · rw [hm1, pyNorm_empty] at h
    rw [if_pos hm1, if_neg hm2, ← h, seg_hits_norm_empty]
  · rw [hm2, pyNorm_empty] at h
    rw [if_neg hm1, if_pos hm2, h, seg_hits_norm_empty]
  · rw [if_neg hm1, if_neg hm2, h]

/-- C8 (amended): `rule_segment` is total and deterministic (it depends on
the message only through normalization), agrees with the spec's
highest-count/priority rule everywhere, and a message with exactly one
camping keyword hit, one experience keyword hit and at most one sports
keyword hit resolves to camping.  (The claim as stated omits the sports
bound; two sports hits outvote the tie — see the counterexample.) -/
theorem C8_rule_segment_deterministic_total :
    (∀ m1 m2 : String, pyNorm m1 = pyNorm m2 → rule_segment m1 = rule_segment m2) ∧
    (∀ m : String, rule_segment m = spec_rule_segment m) ∧
    (∀ m : String, seg_hits m "camping" = 1 → seg_hits m "experience" = 1 →
      seg_hits m "sports" ≤ 1 → rule_segment m = some "camping") := by
  refine ⟨?_, rule_segment_eq_spec, ?_⟩
  · intro m1 m2 h
    rw [rule_segment, rule_segment]
    simp only [seg_hits_norm_det m1 m2 h]
  · intro m hc he hs
    rw [rule_segment_eq_spec, spec_rule_segment]
    rw [hc, he]
    rw [if_neg (by omega), if_pos (by omega)]

/-- C8 witness: the conjuncts applied at the concrete message
`"캠핑 체험"` (one camping hit, one experience hit, no sports hit). -/
theorem C8_rule_segment_deterministic_total_witness :
    (pyNorm "캠핑 체험" = pyNorm "캠핑 체험" ∧
     seg_hits "캠핑 체험" "camping" = 1 ∧ seg_hits "캠핑 체험" "experience" = 1 ∧
     seg_hits "캠핑 체험" "sports" ≤ 1) ∧
    (rule_segment "캠핑 체험" = rule_segment "캠핑 체험" ∧
     rule_segment "캠핑 체험" = spec_rule_segment "캠핑 체험" ∧
     rule_segment "캠핑 체험" = some "camping") :=
  ⟨⟨rfl, by decide, by decide, by decide⟩,
   C8_rule_segment_deterministic_total.1 "캠핑 체험" "캠핑 체험" rfl,
   C8_rule_segment_deterministic_total.2.1 "캠핑 체험",
   C8_rule_segment_deterministic_total.2.2 "캠핑 체험" (by decide) (by decide) (by decide)⟩

/-- C8 (counterexample to the claim's instance as stated): a message with
exactly one camping keyword and one experience keyword — but two sports
keywords — resolves to sports, not camping. -/
theorem C8_sports_outvote_counterexample :
    seg_hits "캠핑 체험 서핑 스키" "camping" = 1 ∧
    seg_hits "캠핑 체험 서핑 스키" "experience" = 1 ∧
    rule_segment "캠핑 체험 서핑 스키" = some "sports" := by
  decide

/-! ## Keyword-jump selection: generic selection lemmas -/

/-- First position attaining the maximal value of `f`, scanning left to
right (the shape shared by `pickTop` after mapping names away). -/
def firstMaxPos (f : Nat → Nat) : List Nat → Option Nat
  | [] => none
  | j :: js =>
    match firstMaxPos f js with
    | none => some j
    | some k => if f j < f k then some k else some j

theorem pickTop_map (nm : Nat → String) (f : Nat → Nat) :
    ∀ js : List Nat, pickTop (js.map (fun j => (nm j, f j))) =
      (firstMaxPos f js).map (fun j => (nm j, f j))
  | [] => rfl
  | j :: js => by
    rw [List.map_cons, pickTop, pickTop_map nm f js, firstMaxPos]
    cases firstMaxPos f js with
    | none => rfl
    | some k =>
      by_cases h : f j < f k
      · simp [h]
      · simp [h]

theorem firstMaxPos_cons_if (f : Nat → Nat) (j : Nat) (js : List Nat) :
    ∃ k, firstMaxPos f (j :: js) = some k := by
  rw [firstMaxPos]
  cases firstMaxPos f js with
  | none => exact ⟨j, rfl⟩
  | some k =>
    by_cases h : f j < f k
    · exact ⟨k, by simp [h]⟩
    · exact ⟨j, by simp [h]⟩

theorem firstMaxPos_mem (f : Nat → Nat) :
    ∀ {js : List Nat} {k : Nat}, firstMaxPos f js = some k → k ∈ js := by
  intro js
  induction js with
  | nil => intro k h; cases h
  | cons j js ih =>
    intro k h
    rw [firstMaxPos] at h
    cases hm : firstMaxPos f js with
    | none =>
      rw [hm] at h
      cases h
      exact List.mem_cons_self _ _
    | some k0 =>
      rw [hm] at h
      have h2 : (if f j < f k0 then some k0 else some j) = some k := h
      by_cases hc : f j < f k0
      · rw [if_pos hc] at h2
        cases h2
        exact List.mem_cons_of_mem _ (ih hm)
      · rw [if_neg hc] at h2
        cases h2
        exact List.mem_cons_self _ _

theorem mem_le_foldr_max : ∀ {l : List Nat} {x : Nat}, x ∈ l → x ≤ l.foldr max 0 := by
  intro l
  induction l with
  | nil => intro x h; cases h
  | cons a l ih =>
    intro x h
    rw [List.foldr_cons]
    rcases List.mem_cons.mp h with rfl | h
    · exact le_max_left _ _
    · exact le_trans (ih h) (le_max_right _ _)

theorem foldr_max_le {l : List Nat} {c : Nat} (h : ∀ x ∈ l, x ≤ c) :
    l.foldr max 0 ≤ c := by
  induction l with
  | nil => exact Nat.zero_le c
  | cons a l ih =>
    rw [List.foldr_cons]
    exact max_le (h a (List.mem_cons_self _ _))
      (ih (fun x hx => h x (List.mem_cons_of_mem _ hx)))

theorem foldr_max_attained : ∀ (l : List Nat),
    l.foldr max 0 = 0 ∨ ∃ x ∈ l, x = l.foldr max 0 := by
  intro l
  induction l with
  | nil => exact Or.inl rfl
  | cons a l ih =>
    rw [List.foldr_cons]
    by_cases hc : l.foldr max 0 ≤ a
    · right
      exact ⟨a, List.mem_cons_self _ _, (max_eq_left hc).symm⟩
    · rcases ih with h0 | ⟨x, hx, he⟩
      · omega
      · right
        refine ⟨x, List.mem_cons_of_mem _ hx, ?_⟩
        rw [he]
        omega

theorem find?_filter_of_imp {p q : Nat → Bool} (h : ∀ a, p a = true → q a = true) :
    ∀ l : List Nat, (l.filter q).find? p = l.find? p := by
  intro l
  induction l with
  | nil => rfl
  | cons a l ih =>
    by_cases hq : q a = true
    · rw [List.filter_cons_of_pos hq]
      cases hp : p a with
      | true => rw [List.find?_cons_of_pos _ hp, List.find?_cons_of_pos _ hp]
      | false =>
        rw [List.find?_cons_of_neg _ (by simp [hp]), List.find?_cons_of_neg _ (by simp [hp]), ih]
    · rw [List.filter_cons_of_neg hq]
      have hp : p a = false := by
        cases hpa : p a
        · rfl
        · exact absurd (h a hpa) hq
      rw [List.find?_cons_of_neg _ (by simp [hp]), ih]

theorem firstMaxPos_eq_find (f : Nat → Nat) :
    ∀ js : List Nat, firstMaxPos f js =
      js.find? (fun j => decide (f j = (js.map f).foldr max 0)) := by
  intro js
  induction js with
  | nil => rfl
  | cons j js ih =>
    cases js with
    | nil =>
      show some j = _
      rw [List.find?_cons_of_pos _ (by simp)]
    | cons j2 js2 =>
      obtain ⟨k, hk⟩ := firstMaxPos_cons_if f j2 js2
      have hkM : f k = ((j2 :: js2).map f).foldr max 0 := by
        have := ih
        rw [hk] at this
        have := List.find?_some this.symm
        simpa using this
      have hM : ((j :: j2 :: js2).map f).foldr max 0 =
          max (f j) (((j2 :: js2).map f).foldr max 0) := by
        rw [List.map_cons, List.foldr_cons]
      rw [firstMaxPos, hk]
      have hred : (match some k with
          | none => some j
          | some k => if f j < f k then some k else some j) =
          (if f j < f k then some k else some j) := rfl
      rw [hred]
      by_cases hc : f j < f k
      · rw [if_pos hc]
        have hMM : ((j :: j2 :: js2).map f).foldr max 0 =
            ((j2 :: js2).map f).foldr max 0 := by
          rw [hM]
          omega
        have hnot : ¬ ((fun x =>
            decide (f x = ((j :: j2 :: js2).map f).foldr max 0)) j = true) := by
          simp only [decide_eq_true_eq]
          rw [hMM]
          omega
        rw [@List.find?_cons_of_neg Nat
          (fun x => decide (f x = ((j :: j2 :: js2).map f).foldr max 0)) j
          (j2 :: js2) hnot]
        simp only [hMM]
        rw [← ih, hk]
      · rw [if_neg hc]
        have hMM : ((j :: j2 :: js2).map f).foldr max 0 = f j := by
          rw [hM]
          omega
        have hpos2 : ((fun x =>
            decide (f x = ((j :: j2 :: js2).map f).foldr max 0)) j = true) := by
          simp only [decide_eq_true_eq]
          rw [hMM]
        rw [@List.find?_cons_of_pos Nat
          (fun x => decide (f x = ((j :: j2 :: js2).map f).foldr max 0)) j
          (j2 :: js2) hpos2]

theorem allzero_filter_nil {f : Nat → Nat} {allJs : List Nat}
    (h : (allJs.map f).foldr max 0 = 0) :
    allJs.filter (fun j => decide (0 < f j)) = [] := by
  rw [List.filter_eq_nil_iff]
  intro a ha
  have := mem_le_foldr_max (List.mem_map_of_mem f ha)
  simp only [decide_eq_true_eq]
  omega

/-- Selecting the first maximum over all candidates and then testing it for
positivity is the same as selecting the first maximum among the positive
candidates. -/
theorem firstMax_pos_filter (f : Nat → Nat) (allJs : List Nat) :
    (match firstMaxPos f allJs with
     | none => none
     | some k => if 0 < f k then some k else none)
    = (allJs.filter (fun j => decide (0 < f j))).find?
        (fun j => decide (f j =
          ((allJs.filter (fun j => decide (0 < f j))).map f).foldr max 0)) := by
  cases hfm : firstMaxPos f allJs with
  | none =>
    have hnil : allJs = [] := by
      cases allJs with
      | nil => rfl
      | cons a rest =>
        obtain ⟨k, hk⟩ := firstMaxPos_cons_if f a rest
        rw [hk] at hfm
        cases hfm
    subst hnil
    rfl
  | some k =>
    have hkM : f k = (allJs.map f).foldr max 0 := by
      have h1 := firstMaxPos_eq_find f allJs
      rw [hfm] at h1
      have h2 := List.find?_some h1.symm
      simpa using h2
    have hred : (match some k with
        | none => none
        | some k => if 0 < f k then some k else none) =
        (if 0 < f k then some k else none) := rfl
    rw [hred]
    by_cases hM : 0 < (allJs.map f).foldr max 0
    · rw [if_pos (by omega)]
      have hMposle :
          ((allJs.filter (fun j => decide (0 < f j))).map f).foldr max 0 ≤
            (allJs.map f).foldr max 0 := by
        apply foldr_max_le
        intro x hx
        rw [List.mem_map] at hx
        obtain ⟨j, hj, rfl⟩ := hx
        exact mem_le_foldr_max (List.mem_map_of_mem f (List.mem_of_mem_filter hj))
      rcases foldr_max_attained (allJs.map f) with h0 | ⟨x, hx, hxM⟩
      · omega
      · rw [List.mem_map] at hx
        obtain ⟨j, hj, rfl⟩ := hx
        have hjpos : j ∈ allJs.filter (fun j => decide (0 < f j)) :=
          List.mem_filter.mpr ⟨hj, by simp only [decide_eq_true_eq]; omega⟩
        have hMlepos : (allJs.map f).foldr max 0 ≤
            ((allJs.filter (fun j => decide (0 < f j))).map f).foldr max 0 := by
          rw [← hxM]
          exact mem_le_foldr_max (List.mem_map_of_mem f hjpos)
        have hMeq : ((allJs.filter (fun j => decide (0 < f j))).map f).foldr max 0 =
            (allJs.map f).foldr max 0 := le_antisymm hMposle hMlepos
        simp only [hMeq]
        rw [@find?_filter_of_imp
            (fun j => decide (f j = (allJs.map f).foldr max 0))
            (fun j => decide (0 < f j))
            (by intro y hy; simp only [decide_eq_true_eq] at *; omega)
            allJs]
        rw [← firstMaxPos_eq_find f allJs, hfm]
    · rw [if_neg (by omega)]
      rw [allzero_filter_nil (by omega)]
      rfl

/-! ## Positions, `indexOf` and the filter decomposition -/

theorem nodup_indexOf_getD : ∀ (l : List String), l.Nodup → ∀ j, j < l.length →
    l.indexOf (l.getD j "") = j := by
  intro l
  induction l with
  | nil => intro _ j h; simp at h
  | cons x l ih =>
    intro hnd j hj
    cases j with
    | zero => simp [List.getD_cons_zero]
    | succ j =>
      rw [List.getD_cons_succ]
      have hjl : j < l.length := by simpa using hj
      have hmem : l.getD j "" ∈ l := by
        rw [List.getD_eq_getElem l "" hjl]
        exact List.getElem_mem hjl
      have hx : x ≠ l.getD j "" := by
        intro he
        exact (List.nodup_cons.mp hnd).1 (he ▸ hmem)
      rw [List.indexOf_cons_ne _ hx, ih (List.nodup_cons.mp hnd).2 j hjl]

theorem filter_eq_map_filter_range (pred : String → Bool) :
    ∀ l : List String, l.filter pred =
      ((List.range l.length).filter (fun j => pred (l.getD j ""))).map
        (fun j => l.getD j "") := by
  intro l
  induction l with
  | nil => rfl
  | cons x l ih =>
    rw [List.filter_cons]
    rw [List.length_cons, List.range_succ_eq_map]
    rw [List.filter_cons]
    have hmapfilter :
        (((List.range l.length).map Nat.succ).filter
            (fun j => pred ((x :: l).getD j ""))) =
          ((List.range l.length).filter (fun j => pred (l.getD j ""))).map Nat.succ := by
      rw [List.filter_map]
      congr 1
    rw [hmapfilter]
    by_cases hx : pred x = true
    · rw [if_pos hx, if_pos (by simpa using hx)]
      rw [List.map_cons, ih, List.map_map]
      congr 1
    · rw [if_neg hx, if_neg (by simpa using hx)]
      rw [ih, List.map_map]
      congr 1

/-! ## `choose_next_progress` against its specification -/

/-- Written from the spec sentence for the jump rule (to be compared with
the embedded code): among the positions of the current section strictly
after the current index whose slot is not yet answered and scores nonzero,
the first position attaining the maximal score; `none` when no such slot
exists. -/
def spec_jump_index (order : List String) (index : Int) (answered : List String)
    (txt : String) : Option Nat :=
  let cands := (List.range order.length).filter
    (fun (j : Nat) => decide (index + 1 ≤ (j : Int)) &&
      !(answered.contains (order.getD j "")) &&
      decide (0 < score_slot txt (order.getD j "")))
  cands.find? (fun j => decide (score_slot txt (order.getD j "") =
    (cands.map (fun j => score_slot txt (order.getD j ""))).foldr max 0))

theorem jump_core (order : List String) (hnd : order.Nodup)
    (index : Int) (answered : List String) (txt : String) :
    (match pickTop ((order.filter (fun sid => !(answered.contains sid) &&
          decide (index + 1 ≤ ((order.indexOf sid : Nat) : Int)))).map
        (fun sid => (sid, score_slot txt sid))) with
     | none => (none : Option Nat)
     | some top => if 0 < top.2 then some (order.indexOf top.1) else none)
    = spec_jump_index order index answered txt := by
  have hfilter : order.filter (fun sid => !(answered.contains sid) &&
      decide (index + 1 ≤ ((order.indexOf sid : Nat) : Int))) =
    ((List.range order.length).filter
        (fun (j : Nat) => !(answered.contains (order.getD j "")) &&
          decide (index + 1 ≤ (j : Int)))).map (fun j => order.getD j "") := by
    rw [filter_eq_map_filter_range]
    congr 1
    apply List.filter_congr
    intro j hj
    rw [List.mem_range] at hj
    rw [nodup_indexOf_getD order hnd j hj]
  rw [hfilter, List.map_map]
  have hcomp : ((fun sid => (sid, score_slot txt sid)) ∘ (fun (j : Nat) => order.getD j "")) =
      (fun (j : Nat) => (order.getD j "", score_slot txt (order.getD j ""))) := rfl
  rw [hcomp]
  rw [pickTop_map (fun j => order.getD j "") (fun j => score_slot txt (order.getD j ""))]
  have hcands : (List.range order.length).filter
      (fun (j : Nat) => decide (index + 1 ≤ (j : Int)) &&
        !(answered.contains (order.getD j "")) &&
        decide (0 < score_slot txt (order.getD j ""))) =
    ((List.range order.length).filter
        (fun (j : Nat) => !(answered.contains (order.getD j "")) &&
          decide (index + 1 ≤ (j : Int)))).filter
      (fun j => decide (0 < score_slot txt (order.getD j ""))) := by
    rw [List.filter_filter]
    apply List.filter_congr
    intro j _
    cases hB : answered.contains (order.getD j "") <;>
      cases hA : decide (index + 1 ≤ (j : Int)) <;>
      cases hC : decide (0 < score_slot txt (order.getD j "")) <;>
      simp [hA, hB, hC]
  simp only [spec_jump_index]
  rw [hcands]
  rw [← firstMax_pos_filter (fun j => score_slot txt (order.getD j ""))
    ((List.range order.length).filter
      (fun (j : Nat) => !(answered.contains (order.getD j "")) &&
        decide (index + 1 ≤ (j : Int))))]
  cases hfm : firstMaxPos (fun j => score_slot txt (order.getD j ""))
      ((List.range order.length).filter
        (fun (j : Nat) => !(answered.contains (order.getD j "")) &&
          decide (index + 1 ≤ (j : Int)))) with
  | none => rfl
  | some k =>
    have hk_mem := firstMaxPos_mem _ hfm
    have hkn : k < order.length := by
      have := List.mem_of_mem_filter hk_mem
      rwa [List.mem_range] at this
    show (if 0 < score_slot txt (order.getD k "") then
        some (order.indexOf (order.getD k "")) else none) = _
    rw [nodup_indexOf_getD order hnd k hkn]

theorem find_best_isSome {f : Nat → Nat} {cands : List Nat}
    (hpos : ∀ j ∈ cands, 0 < f j) (hne : cands ≠ []) :
    (cands.find? (fun j => decide (f j = (cands.map f).foldr max 0))).isSome := by
  rcases foldr_max_attained (cands.map f) with h0 | ⟨x, hx, hxM⟩
  · match cands, hne with
    | c :: rest, _ =>
      have h1 := hpos c (List.mem_cons_self _ _)
      have h2 := mem_le_foldr_max (List.mem_map_of_mem f (List.mem_cons_self c rest))
      omega
  · rw [List.mem_map] at hx
    obtain ⟨j, hj, rfl⟩ := hx
    rw [List.find?_isSome]
    exact ⟨j, hj, by simp [hxM]⟩

theorem spec_jump_index_none_iff (order : List String) (index : Int)
    (answered : List String) (txt : String) :
    spec_jump_index order index answered txt = none ↔
    ∀ j, j < order.length → index + 1 ≤ (j : Int) →
      order.getD j "" ∉ answered → score_slot txt (order.getD j "") = 0 := by
  simp only [spec_jump_index]
  constructor
  · intro hnone j hj hidx hans
    by_contra hsc
    have hjc : j ∈ (List.range order.length).filter
        (fun (j : Nat) => decide (index + 1 ≤ (j : Int)) &&
          !(answered.contains (order.getD j "")) &&
          decide (0 < score_slot txt (order.getD j ""))) := by
      rw [List.mem_filter, List.mem_range]
      refine ⟨hj, ?_⟩
      have hcont : answered.contains (order.getD j "") = false := by
        rw [show answered.contains (order.getD j "") =
          answered.elem (order.getD j "") from rfl]
        cases he : answered.elem (order.getD j "")
        · rfl
        · exact absurd (List.mem_of_elem_eq_true he) hans
      simp only [Bool.and_eq_true, decide_eq_true_eq, hcont, Bool.not_false]
      exact ⟨⟨hidx, trivial⟩, by omega⟩
    have hne : (List.range order.length).filter
        (fun (j : Nat) => decide (index + 1 ≤ (j : Int)) &&
          !(answered.contains (order.getD j "")) &&
          decide (0 < score_slot txt (order.getD j ""))) ≠ [] := by
      intro he
      rw [he] at hjc
      cases hjc
    have hpos : ∀ i ∈ (List.range order.length).filter
        (fun (j : Nat) => decide (index + 1 ≤ (j : Int)) &&
          !(answered.contains (order.getD j "")) &&
          decide (0 < score_slot txt (order.getD j ""))),
        0 < score_slot txt (order.getD i "") := by
      intro i hi
      rw [List.mem_filter] at hi
      have h2 := hi.2
      simp only [Bool.and_eq_true, decide_eq_true_eq] at h2
      exact h2.2
    have hs := find_best_isSome hpos hne
    rw [hnone] at hs
    cases hs
  · intro hall
    have hnil : (List.range order.length).filter
        (fun (j : Nat) => decide (index + 1 ≤ (j : Int)) &&
          !(answered.contains (order.getD j "")) &&
          decide (0 < score_slot txt (order.getD j ""))) = [] := by
      rw [List.filter_eq_nil_iff]
      intro j hjr
      rw [List.mem_range] at hjr
      intro hcontra
      simp only [Bool.and_eq_true, decide_eq_true_eq, Bool.not_eq_true] at hcontra
      obtain ⟨⟨hA, hB⟩, hC⟩ := hcontra
      have hmem : order.getD j "" ∉ answered := by
        intro hm
        have h2 : answered.elem (order.getD j "") = true := List.elem_eq_true_of_mem hm
        rw [show answered.contains (order.getD j "") =
          answered.elem (order.getD j "") from rfl, h2] at hB
        cases hB
      have hz := hall j hjr hA hmem
      omega
    rw [hnil]
    rfl

/-- C7: for every Progress over a valid section, `choose_next_progress`
jumps to the first maximal-scoring unanswered slot strictly after the
current index when some such slot scores nonzero (ties to the first in
list order), and otherwise returns exactly `next_progress`; the
`spec_jump_index` side condition characterises "no qualifying slot scores
nonzero". -/
theorem C7_choose_next_progress_spec (p : Progress) (txt : String)
    (hsec : p.section_ = "A" ∨ p.section_ = "B" ∨ p.section_ = "C" ∨ p.section_ = "D") :
    choose_next_progress p txt =
      (match spec_jump_index ((SECTION_ORDER_find p.section_).getD []) p.index
          p.answered txt with
       | some j => Except.ok (some { p with index := (j : Int) })
       | none => next_progress p) ∧
    (spec_jump_index ((SECTION_ORDER_find p.section_).getD []) p.index p.answered txt
        = none ↔
      ∀ j, j < ((SECTION_ORDER_find p.section_).getD []).length →
        p.index + 1 ≤ (j : Int) →
        ((SECTION_ORDER_find p.section_).getD []).getD j "" ∉ p.answered →
        score_slot txt (((SECTION_ORDER_find p.section_).getD []).getD j "") = 0) := by
  refine ⟨?_, spec_jump_index_none_iff _ _ _ _⟩
  obtain ⟨order, ho, hnd, hne⟩ : ∃ order, SECTION_ORDER_find p.section_ = some order ∧
      order.Nodup ∧ order ≠ [] := by
    rcases hsec with h | h | h | h <;>
      · rw [h]
        exact ⟨_, rfl, by decide, by decide⟩
  simp only [choose_next_progress, ho, Option.getD_some]
  rw [if_neg (by simp [List.isEmpty_iff, hne])]
  rw [← jump_core order hnd p.index p.answered txt]
  cases hpt : pickTop ((order.filter (fun sid => !(p.answered.contains sid) &&
      decide (p.index + 1 ≤ ((order.indexOf sid : Nat) : Int)))).map
      (fun sid => (sid, score_slot txt sid))) with
  | none => rfl
  | some top =>
    by_cases hpos : 0 < top.2 <;> simp [hpos]

/-- C7 witness: the theorem applied at section B, index 0, empty answered
set, with a user text matching the `B4_diff` jump keywords (jump to
position 3); the definitions evaluate by `decide`. -/
theorem C7_choose_next_progress_spec_witness :
    (({ section_ := "B", index := 0, answered := [] } : Progress).section_ = "A" ∨
     ({ section_ := "B", index := 0, answered := [] } : Progress).section_ = "B" ∨
     ({ section_ := "B", index := 0, answered := [] } : Progress).section_ = "C" ∨
     ({ section_ := "B", index := 0, answered := [] } : Progress).section_ = "D") ∧
    choose_next_progress { section_ := "B", index := 0, answered := [] } "차별화 전략"
      = Except.ok (some { section_ := "B", index := 3, answered := [] }) ∧
    spec_jump_index B_ORDER 0 [] "차별화 전략" = some 3 := by
  refine ⟨Or.inr (Or.inl rfl), ?_, by decide⟩
  have h := (C7_choose_next_progress_spec
    { section_ := "B", index := 0, answered := [] } "차별화 전략"
    (Or.inr (Or.inl rfl))).1
  rw [h]
  rfl

end PM